import Mathlib

/-!
Verification of the Othello move-selection engine in `MyBot.cpp`.

The engine's decision logic (evaluation, move ordering, transposition table,
alpha-beta search, iterative-deepening root driver) is embedded shallowly below.
The board itself (`OthelloBoard` of the Desdemona framework) is an external
collaborator and is modelled abstractly from its interface; see `Board`.

Modelling conventions, fixed once here:
* C++ `double` weight arithmetic in `evaluate` is modelled exactly: the weight
  tuples are scaled by 100 to integers and the final `(int)` cast (truncation
  toward zero) becomes `Int.tdiv _ 100`.
* The wall clock is modelled by a counter of `isTimeUp()` calls together with an
  optional deadline `dl : Option Nat`: the k-th check reports expiry iff
  `dl = some d` with `d ≤ k`.  Since the real clock is monotone and the C++
  `timeoutFlag` latches, the observable behaviour of `isTimeUp` along one
  request is exactly such a monotone boolean sequence; `dl = none` is the
  "budget never expires" regime.
* The Zobrist hasher is an engine-start constant table fed through a fixed
  formula; no claim depends on the actual hash values, so the whole hash
  function is passed around as an abstract parameter `hashFn : Board → Nat`.
* `std::sort` guarantees a permutation ordered by the comparator and nothing
  about ties; it is modelled by the stable `List.mergeSort` with the
  non-strict version of the comparator, one admissible `std::sort` behaviour.
-/

/-- Turn of a player, mirroring the framework's `Turn` values `BLACK` and `RED`. -/
inductive Turn where
  | BLACK
  | RED
deriving DecidableEq, Repr

/-- Move with two integer board coordinates, mirroring the framework's `Move`
struct with `int x, y` and structural equality. -/
structure Move where
  x : Int
  y : Int
deriving DecidableEq, Repr

/-- Modelled from the spec: the external board collaborator (`OthelloBoard` of
the Desdemona framework, spec section 6), whose sources are not part of this
repository.  A `Board` packages the answers the collaborator can give to the
engine: the two piece counts, the legal-move enumeration `getValidMoves` for
each side, the acceptance set of the legality check `validateMove` for each
side (kept separate from the enumeration so that agreement between the two can
be an explicit hypothesis), and `makeMove` as an association list of successor
boards per side (a key that is absent models the framework throwing on an
illegal move).  Every exploration step of the engine operates on its own copy,
which the functional embedding gives for free. -/
inductive Board where
  | node
      (blackCount redCount : Nat)
      (validB validR : List Move)
      (legalB legalR : List Move)
      (childB childR : List (Move × Board))

/-- Piece count of `BLACK`, the collaborator's `getBlackCount`. -/
def Board.getBlackCount : Board → Nat
  | .node bc _ _ _ _ _ _ _ => bc

/-- Piece count of `RED`, the collaborator's `getRedCount`. -/
def Board.getRedCount : Board → Nat
  | .node _ rc _ _ _ _ _ _ => rc

/-- Legal-move enumeration, the collaborator's `getValidMoves`. -/
def Board.getValidMoves : Board → Turn → List Move
  | .node _ _ vb _ _ _ _ _, Turn.BLACK => vb
  | .node _ _ _ vr _ _ _ _, Turn.RED => vr

/-- Acceptance set of the collaborator's `validateMove` legality check. -/
def Board.legalSet : Board → Turn → List Move
  | .node _ _ _ _ lb _ _ _, Turn.BLACK => lb
  | .node _ _ _ _ _ lr _ _, Turn.RED => lr

/-- The collaborator's `validateMove` legality check. -/
def Board.validateMove (b : Board) (t : Turn) (m : Move) : Bool :=
  decide (m ∈ b.legalSet t)

/-- Successor association list backing `makeMove`. -/
def Board.children : Board → Turn → List (Move × Board)
  | .node _ _ _ _ _ _ cb _, Turn.BLACK => cb
  | .node _ _ _ _ _ _ _ cr, Turn.RED => cr

/-- The collaborator's `makeMove`: the successor board for a move, or `none`
when the framework would throw on an illegal move. -/
def Board.makeMove (b : Board) (t : Turn) (m : Move) : Option Board :=
  ((b.children t).find? (fun p => p.1 == m)).map (fun p => p.2)

/-- Search score infinity (`MyBot.cpp` line 27). -/
def INF : Int := 1000000

/-- Maximal search depth (`MyBot.cpp` line 29). -/
def MAX_DEPTH : Int := 20

/-- Positional weight matrix (`MyBot.cpp` lines 33-42). -/
def POSITION_WEIGHTS : List (List Int) :=
  [[100, -20, 10,  5,  5, 10, -20, 100],
   [-20, -50, -2, -2, -2, -2, -50, -20],
   [ 10,  -2,  1,  0,  0,  1,  -2,  10],
   [  5,  -2,  0, -1, -1,  0,  -2,   5],
   [  5,  -2,  0, -1, -1,  0,  -2,   5],
   [ 10,  -2,  1,  0,  0,  1,  -2,  10],
   [-20, -50, -2, -2, -2, -2, -50, -20],
   [100, -20, 10,  5,  5, 10, -20, 100]]

/-- Lookup `POSITION_WEIGHTS[m.x][m.y]`.  The C++ code indexes the raw array
(the collaborator only hands over in-range moves); out-of-range lookups are
totalised to 0 here. -/
def posWeight (m : Move) : Int :=
  (((POSITION_WEIGHTS[m.x.toNat]?).getD [])[m.y.toNat]?).getD 0

/-- The `opponent` helper (`MyBot.cpp` lines 131-133). -/
def opponent : Turn → Turn
  | Turn.BLACK => Turn.RED
  | Turn.RED => Turn.BLACK

/-- The `emptySquares` helper (`MyBot.cpp` lines 135-137), over `Int` exactly as
the C++ `int` arithmetic. -/
def emptySquares (board : Board) : Int :=
  64 - (board.getBlackCount : Int) - (board.getRedCount : Int)

/-- Corner test (`MyBot.cpp` lines 152-155). -/
def isCorner (m : Move) : Bool :=
  (m.x == 0 && m.y == 0) || (m.x == 0 && m.y == 7) ||
  (m.x == 7 && m.y == 0) || (m.x == 7 && m.y == 7)

/-- X-square test (`MyBot.cpp` lines 157-161). -/
def isXSquare (m : Move) : Bool :=
  (m.x == 1 && m.y == 1) || (m.x == 1 && m.y == 6) ||
  (m.x == 6 && m.y == 1) || (m.x == 6 && m.y == 6)

/-- C-square test (`MyBot.cpp` lines 163-167). -/
def isCSquare (m : Move) : Bool :=
  ((m.x == 0 || m.x == 7) && (m.y == 1 || m.y == 6)) ||
  ((m.y == 0 || m.y == 7) && (m.x == 1 || m.x == 6))

/-- Edge test (`MyBot.cpp` lines 169-171). -/
def isEdge (m : Move) : Bool :=
  m.x == 0 || m.x == 7 || m.y == 0 || m.y == 7

/-- Phase-based evaluation weights (`getWeights`, `MyBot.cpp` lines 174-182).
The C++ doubles `{0.40, 0.35, 0.15, 0.10, 0.00}` etc. are scaled by 100 into
exact integers, matching the `Int.tdiv _ 100` at the end of `evaluate`. -/
def getWeights (empty : Int) : Int × Int × Int × Int × Int :=
  if empty > 48 then (40, 35, 15, 10, 0)
  else if empty > 20 then (25, 25, 20, 20, 10)
  else (10, 5, 15, 20, 50)

/-- Chebyshev-adjacency test used inside `evaluateCorners`
(`abs(mv.x - corner.first) <= 1 && abs(mv.y - corner.second) <= 1`). -/
def nearCorner (c : Int × Int) (mv : Move) : Bool :=
  decide ((mv.x - c.1).natAbs ≤ 1) && decide ((mv.y - c.2).natAbs ≤ 1)

/-- Contribution of one corner in `evaluateCorners` (`MyBot.cpp` lines 197-225). -/
def cornerScore (board : Board) (perspective : Turn) (c : Int × Int) : Int :=
  let opp := opponent perspective
  let m : Move := ⟨c.1, c.2⟩
  if !board.validateMove perspective m && !board.validateMove opp m then
    let myNear := (board.getValidMoves perspective).countP (nearCorner c)
    let oppNear := (board.getValidMoves opp).countP (nearCorner c)
    if myNear < oppNear then 100
    else if oppNear < myNear then -100
    else 0
  else 0

/-- Corner-control evaluation (`evaluateCorners`, `MyBot.cpp` lines 189-229):
the loop accumulating into `score` is rendered as the sum of the per-corner
contributions over the same corner list. -/
def evaluateCorners (board : Board) (perspective : Turn) : Int :=
  (([(0, 0), (0, 7), (7, 0), (7, 7)] : List (Int × Int)).map
    (cornerScore board perspective)).sum

/-- Positional evaluation over reachable squares (`evaluatePositional`,
`MyBot.cpp` lines 232-244). -/
def evaluatePositional (myMoves oppMoves : List Move) : Int :=
  (myMoves.map posWeight).sum - (oppMoves.map posWeight).sum

/-- Safe-edge test inside `evaluateStability`: on the border but neither an
X-square nor a C-square. -/
def safeEdge (m : Move) : Bool :=
  isEdge m && !isXSquare m && !isCSquare m

/-- Stability evaluation (`evaluateStability`, `MyBot.cpp` lines 247-268). -/
def evaluateStability (board : Board) (perspective : Turn) : Int :=
  let myMoves := board.getValidMoves perspective
  let oppMoves := board.getValidMoves (opponent perspective)
  let myEdges := myMoves.countP safeEdge
  let oppEdges := oppMoves.countP safeEdge
  evaluateCorners board perspective + ((myEdges : Int) - (oppEdges : Int)) * 5

/-- Static evaluation (`evaluate`, `MyBot.cpp` lines 271-304).  The weighted
double combination and the final `(int)` cast are modelled exactly by the
100-scaled integer weights and truncating division. -/
def evaluate (board : Board) (perspective : Turn) : Int :=
  let w := getWeights (emptySquares board)
  let sign : Int := if perspective = Turn.BLACK then 1 else -1
  let material := ((board.getBlackCount : Int) - (board.getRedCount : Int)) * sign
  let myMoves := board.getValidMoves perspective
  let oppMoves := board.getValidMoves (opponent perspective)
  let mobility : Int := (myMoves.length : Int) - (oppMoves.length : Int)
  let positional := evaluatePositional myMoves oppMoves
  let corners := evaluateCorners board perspective
  let stability := evaluateStability board perspective
  Int.tdiv
    (w.1 * positional + w.2.1 * mobility * 5 + w.2.2.1 * corners +
      w.2.2.2.1 * stability + w.2.2.2.2 * material) 100

/-- Composite ordering score of one candidate move (`orderMoves` loop body,
`MyBot.cpp` lines 316-351).  A failing `makeMove` (the C++ catch) costs
100000. -/
def moveScore (board : Board) (turn : Turn) (empty : Int) (m : Move) : Int :=
  let base : Int :=
    if isCorner m then 100000
    else if isXSquare m && decide (empty > 30) then -50000
    else if isCSquare m && decide (empty > 30) then -20000
    else if isEdge m then 5000
    else posWeight m * 100
  let penalty : Int :=
    match board.makeMove turn m with
    | some nb => ((nb.getValidMoves (opponent turn)).length : Int) * 50
    | none => 100000
  base - penalty

/-- Move ordering (`orderMoves`, `MyBot.cpp` lines 310-366).  `std::sort` with
comparator `a.first > b.first` is modelled by `mergeSort` with the non-strict
comparator, one admissible behaviour of the unstable `std::sort`. -/
def orderMoves (moves : List Move) (board : Board) (turn : Turn) : List Move :=
  if moves.length ≤ 1 then moves
  else
    let empty := emptySquares board
    let scored := moves.map (fun m => (moveScore board turn empty m, m))
    let sorted := scored.mergeSort (fun a b => decide (b.1 ≤ a.1))
    sorted.map (fun p => p.2)

/-- Transposition table entry (`TTEntry`, `MyBot.cpp` lines 58-67).  The C++
`depth` is an `int` whose only negative value, the `-1` of the default
constructor, never enters the table (stores always write a search depth), so it
is a `Nat` here. -/
structure TTEntry where
  hash : Nat
  depth : Nat
  score : Int
  bestMove : Move
deriving DecidableEq, Repr

/-- Search-request state threaded through the engine: the number of `isTimeUp`
checks performed so far (the model's clock) and the transposition table, the
two globals of `MyBot.cpp` lines 122-125 that the search mutates. -/
structure SState where
  checks : Nat
  table : List (Nat × TTEntry)
deriving Repr

/-- Expiry test of the modelled clock: check number `t` reports expiry iff the
deadline `dl` is `some d` with `d ≤ t`.  `dl = none` is an inexhaustible
budget.  Monotonicity in `t` models the monotone clock plus the latching
`timeoutFlag` of `isTimeUp` (`MyBot.cpp` lines 139-150). -/
def timeUpAt (dl : Option Nat) (t : Nat) : Bool :=
  match dl with
  | none => false
  | some d => decide (d ≤ t)

/-- Advance the check counter by one. -/
def bump (st : SState) : SState :=
  { st with checks := st.checks + 1 }

/-- Store an entry under a key, overwriting unconditionally
(`transpositionTable[hash] = TTEntry(...)`, `MyBot.cpp` line 450). -/
def ttStore (table : List (Nat × TTEntry)) (h : Nat) (e : TTEntry) :
    List (Nat × TTEntry) :=
  (h, e) :: table.filter (fun p => !(p.1 == h))

/-- Promotion of a cached best move to the front of the move list
(`myMoves.remove(entry.bestMove); myMoves.push_front(entry.bestMove)`,
`MyBot.cpp` lines 402-403).  `std::list::remove` erases all equal elements. -/
def promote (bm : Move) (l : List Move) : List Move :=
  bm :: l.filter (fun m => !(m == bm))

/-- Transposition-table probe of `alphaBeta` (`MyBot.cpp` lines 397-405): on a
stored entry for the position's hash whose own hash field matches and whose
stored depth is at least the requested depth, promote the cached best move to
the front of the move list; otherwise leave the list unchanged. -/
def ttProbe (table : List (Nat × TTEntry)) (h : Nat) (depth : Nat)
    (moves : List Move) : List Move :=
  match table.find? (fun p => p.1 == h) with
  | some p =>
      if p.2.hash = h ∧ depth ≤ p.2.depth then promote p.2.bestMove moves
      else moves
  | none => moves

/-- Child-exploration loop of `alphaBeta` (`MyBot.cpp` lines 414-446),
abstracted over the recursive depth-minus-one search `recur`.  Per iteration:
time check (break on expiry), `makeMove` (skip the move on failure, the C++
catch), recursive score, best/alpha update at a maximizing node or best/beta
update at a minimizing node, beta-cutoff break. -/
def abLoop (dl : Option Nat) (board : Board) (turn : Turn) (maximizing : Bool)
    (recur : Board → Int → Int → SState → Int × SState) :
    List Move → Int → Int → Int → Move → SState → Int × Move × SState
  | [], _, _, bestVal, bestMove, st => (bestVal, bestMove, st)
  | m :: rest, alpha, beta, bestVal, bestMove, st =>
    if timeUpAt dl st.checks then (bestVal, bestMove, bump st)
    else
      match board.makeMove turn m with
      | none => abLoop dl board turn maximizing recur rest alpha beta bestVal bestMove (bump st)
      | some nb =>
        let r := recur nb alpha beta (bump st)
        if maximizing then
          let bestVal' := if r.1 > bestVal then r.1 else bestVal
          let bestMove' := if r.1 > bestVal then m else bestMove
          let alpha' := max alpha r.1
          if beta ≤ alpha' then (bestVal', bestMove', r.2)
          else abLoop dl board turn maximizing recur rest alpha' beta bestVal' bestMove' r.2
        else
          let bestVal' := if r.1 < bestVal then r.1 else bestVal
          let bestMove' := if r.1 < bestVal then m else bestMove
          let beta' := min beta r.1
          if beta' ≤ alpha then (bestVal', bestMove', r.2)
          else abLoop dl board turn maximizing recur rest alpha beta' bestVal' bestMove' r.2

/-- Alpha-beta search (`alphaBeta`, `MyBot.cpp` lines 372-454): timeout check,
terminal/depth-exhaustion evaluation, pass at unchanged depth, transposition
probe, move ordering, child loop, and the table store guarded by a final
timeout check.  `hashFn` abstracts the engine's Zobrist hasher. -/
def alphaBeta (hashFn : Board → Nat) (dl : Option Nat) (board : Board)
    (currTurn : Turn) (depth : Nat) (alpha beta : Int) (perspective : Turn)
    (st : SState) : Int × SState :=
  if timeUpAt dl st.checks then (evaluate board perspective, bump st)
  else
    let myMoves := board.getValidMoves currTurn
    let oppMoves := board.getValidMoves (opponent currTurn)
    if _h1 : depth = 0 ∨ (myMoves = [] ∧ oppMoves = []) then
      (evaluate board perspective, bump st)
    else if _h2 : myMoves = [] then
      alphaBeta hashFn dl board (opponent currTurn) depth alpha beta perspective (bump st)
    else
      let hash := hashFn board
      let probed := ttProbe st.table hash depth myMoves
      let ordered := orderMoves probed board currTurn
      let maximizing := currTurn == perspective
      let bv0 : Int := if maximizing then -INF else INF
      let bm0 := ordered.headD ⟨0, 0⟩
      let r := abLoop dl board currTurn maximizing
        (fun nb a b s => alphaBeta hashFn dl nb (opponent currTurn) (depth - 1) a b perspective s)
        ordered alpha beta bv0 bm0 (bump st)
      if timeUpAt dl r.2.2.checks then (r.1, bump r.2.2)
      else (r.1, { checks := r.2.2.checks + 1,
                   table := ttStore r.2.2.table hash ⟨hash, depth, r.1, r.2.1⟩ })
termination_by 2 * depth + (if board.getValidMoves currTurn = [] then 1 else 0)
decreasing_by
  · have hno : ¬(board.getValidMoves currTurn = [] ∧
        board.getValidMoves (opponent currTurn) = []) := by
      intro hc; exact _h1 (Or.inr hc)
    have hopp : board.getValidMoves (opponent currTurn) ≠ [] := by
      intro hc; exact hno ⟨_h2, hc⟩
    simp only [_h2, hopp, if_neg, not_false_eq_true, ite_true, ite_false]
    split <;> omega
  · have hd : depth ≠ 0 := by intro hc; exact _h1 (Or.inl hc)
    split <;> omega

/-- Unpruned minimax reference search over the same tree, same leaf evaluator,
same pass rule and same skipping of moves the collaborator rejects; written
from the spec's testable property "the score returned by Alpha-Beta Search at
full depth equals the score from an unpruned minimax search on the same
tree". -/
def minimax (board : Board) (turn : Turn) (depth : Nat) (perspective : Turn) : Int :=
  let myMoves := board.getValidMoves turn
  let oppMoves := board.getValidMoves (opponent turn)
  if _h1 : depth = 0 ∨ (myMoves = [] ∧ oppMoves = []) then evaluate board perspective
  else if _h2 : myMoves = [] then minimax board (opponent turn) depth perspective
  else
    let maximizing := turn == perspective
    myMoves.foldl
      (fun acc m =>
        match board.makeMove turn m with
        | none => acc
        | some nb =>
          let v := minimax nb (opponent turn) (depth - 1) perspective
          if maximizing then max acc v else min acc v)
      (if maximizing then -INF else INF)
termination_by 2 * depth + (if board.getValidMoves turn = [] then 1 else 0)
decreasing_by
  · have hno : ¬(board.getValidMoves turn = [] ∧
        board.getValidMoves (opponent turn) = []) := by
      intro hc; exact _h1 (Or.inr hc)
    have hopp : board.getValidMoves (opponent turn) ≠ [] := by
      intro hc; exact hno ⟨_h2, hc⟩
    simp only [_h2, hopp, if_neg, not_false_eq_true, ite_true, ite_false]
    split <;> omega
  · have hd : depth ≠ 0 := by intro hc; exact _h1 (Or.inl hc)
    split <;> omega

/-- Root-move loop of one iterative-deepening iteration (`rootSearch` inner
loop, `MyBot.cpp` lines 482-499): per root move a time check (break on
expiry), `makeMove` (skip on failure), a full-window alpha-beta call at
`depth - 1` from the opponent's turn with perspective fixed to `turn`, and a
strict-improvement update of the iteration best. -/
def rootMovesLoop (hashFn : Board → Nat) (dl : Option Nat) (board : Board)
    (turn : Turn) (depth : Nat) :
    List Move → Int → Move → SState → Int × Move × SState
  | [], iterScore, iterBest, st => (iterScore, iterBest, st)
  | m :: rest, iterScore, iterBest, st =>
    if timeUpAt dl st.checks then (iterScore, iterBest, bump st)
    else
      match board.makeMove turn m with
      | none => rootMovesLoop hashFn dl board turn depth rest iterScore iterBest (bump st)
      | some nb =>
        let r := alphaBeta hashFn dl nb (opponent turn) (depth - 1) (-INF) INF turn (bump st)
        if r.1 > iterScore then rootMovesLoop hashFn dl board turn depth rest r.1 m r.2
        else rootMovesLoop hashFn dl board turn depth rest iterScore iterBest r.2

/-- Iterative-deepening driver loop (`rootSearch`, `MyBot.cpp` lines 476-509):
depths 2, 4, 6, ... up to `maxDepth`, each iteration preceded by a time check
(break on expiry); the iteration's best is committed as the running best and
promoted to the front of the root move list only if the post-iteration time
check passes.  Besides the running best move and the state, the list of
committed iteration depths is returned so that theorems can speak about which
iterations completed; the move result is exactly the source's. -/
def idLoop (hashFn : Board → Nat) (dl : Option Nat) (board : Board) (turn : Turn)
    (maxDepth : Int) (depth : Nat) (moves : List Move) (best : Move)
    (st : SState) : Move × List Nat × SState :=
  if h : (depth : Int) ≤ maxDepth then
    if timeUpAt dl st.checks then (best, [], bump st)
    else
      let r := rootMovesLoop hashFn dl board turn depth moves (-INF) best (bump st)
      if timeUpAt dl r.2.2.checks then
        idLoop hashFn dl board turn maxDepth (depth + 2) moves best (bump r.2.2)
      else
        let rec' := idLoop hashFn dl board turn maxDepth (depth + 2)
          (promote r.2.1 moves) r.2.1 (bump r.2.2)
        (rec'.1, depth :: rec'.2.1, rec'.2.2)
  else (best, [], st)
termination_by (maxDepth + 2 - depth).toNat
decreasing_by
  · omega
  · omega

/-- Even iteration depths attempted from `k` up to `maxDepth`, mirroring the
`for (depth = 2; depth <= maxDepth; depth += 2)` schedule of `rootSearch`;
used to state which iterations the driver completes. -/
def depthsFrom (k : Nat) (maxDepth : Int) : List Nat :=
  if h : (k : Int) ≤ maxDepth then k :: depthsFrom (k + 2) maxDepth else []
termination_by (maxDepth + 2 - k).toNat
decreasing_by omega

/-- Root search with iterative deepening (`rootSearch`, `MyBot.cpp` lines
460-512): pass sentinel on no legal move, immediate return on a single legal
move, otherwise one initial ordering of the root moves and the deepening
loop starting from the ordered list's front. -/
def rootSearch (hashFn : Board → Nat) (dl : Option Nat) (board : Board)
    (turn : Turn) (maxDepth : Int) (st : SState) : Move × List Nat × SState :=
  let moves := board.getValidMoves turn
  if moves = [] then (⟨0, 0⟩, [], st)
  else if moves.length = 1 then (moves.headD ⟨0, 0⟩, [], st)
  else
    let ordered := orderMoves moves board turn
    idLoop hashFn dl board turn maxDepth 2 ordered (ordered.headD ⟨0, 0⟩) st

/-- Adaptive target depth of `playMove` (`MyBot.cpp` lines 536-553), including
the clamp to `MAX_DEPTH`. -/
def targetDepth (board : Board) : Int :=
  let empty := emptySquares board
  let maxDepth : Int :=
    if empty ≤ 12 then empty
    else if empty ≤ 20 then 10
    else if empty ≤ 40 then 8
    else 6
  min maxDepth MAX_DEPTH

/-- Top-level move selection (`playMove`, `MyBot.cpp` lines 518-565): reset the
timer, timeout flag and transposition table (the fresh `SState`), return the
pass sentinel on no legal move, return a single legal move immediately,
otherwise run the iterative-deepening search at the adaptive target depth and
fall back to the first enumerated legal move if the chosen move fails the
final `validateMove` check. -/
def playMove (hashFn : Board → Nat) (dl : Option Nat) (board : Board)
    (turn : Turn) : Move :=
  let st0 : SState := ⟨0, []⟩
  let moves := board.getValidMoves turn
  if moves = [] then ⟨0, 0⟩
  else if moves.length = 1 then moves.headD ⟨0, 0⟩
  else
    let bestMove := (rootSearch hashFn dl board turn (targetDepth board) st0).1
    if board.validateMove turn bestMove then bestMove
    else moves.headD ⟨0, 0⟩

/-! Sample fixtures used by the concrete witness computations. -/

/-- Terminal sample board with the given piece counts and no moves for either
side. -/
def leafBoard (bc rc : Nat) : Board := Board.node bc rc [] [] [] [] [] []

/-- Small consistent sample position: two legal `BLACK` moves, one `RED` move,
legality sets agreeing with the enumerations, all children terminal. -/
def sampleBoard : Board :=
  Board.node 30 23 [⟨2, 3⟩, ⟨4, 5⟩] [⟨3, 3⟩] [⟨2, 3⟩, ⟨4, 5⟩] [⟨3, 3⟩]
    [(⟨2, 3⟩, leafBoard 33 21), (⟨4, 5⟩, leafBoard 32 22)]
    [(⟨3, 3⟩, leafBoard 29 25)]

/-- Constant hash function for the sample computations (the claims hold for
every hash function). -/
def hf0 : Board → Nat := fun _ => 0

/-! Fixtures for the C3 counterexample: a position with 11 empty cells over a
chain of successors deep enough for every scheduled iteration. -/

/-- Linear chain of boards: each inner board offers the single move `(2,2)` to
both sides; `f` is the remaining chain length. -/
def chainBoard : Nat → Nat → Nat → Board
  | 0, bc, rc => Board.node bc rc [] [] [] [] [] []
  | f + 1, bc, rc =>
      Board.node bc rc [⟨2, 2⟩] [⟨2, 2⟩] [⟨2, 2⟩] [⟨2, 2⟩]
        [(⟨2, 2⟩, chainBoard f (bc + 1) rc)] [(⟨2, 2⟩, chainBoard f bc (rc + 1))]

/-- Sample position with 53 pieces, hence 11 empty cells, and two legal
`BLACK` moves. -/
def oddEndgameBoard : Board :=
  Board.node 27 26 [⟨2, 2⟩, ⟨3, 3⟩] [⟨2, 2⟩] [⟨2, 2⟩, ⟨3, 3⟩] [⟨2, 2⟩]
    [(⟨2, 2⟩, chainBoard 12 28 26), (⟨3, 3⟩, chainBoard 12 28 26)]
    [(⟨2, 2⟩, chainBoard 12 27 27)]

/-- Witness for C3 (amended) at a concrete position with 10 empty cells. -/
def evenEndgameBoard : Board :=
  Board.node 28 26 [⟨2, 2⟩, ⟨3, 3⟩] [⟨2, 2⟩] [⟨2, 2⟩, ⟨3, 3⟩] [⟨2, 2⟩]
    [(⟨2, 2⟩, chainBoard 12 29 26), (⟨3, 3⟩, chainBoard 12 29 26)]
    [(⟨2, 2⟩, chainBoard 12 28 27)]

/-- Position with a single legal `BLACK` move into a terminal child, used by
the C4 counterexample. -/
def timeoutBoard : Board :=
  Board.node 32 30 [⟨2, 2⟩] [] [⟨2, 2⟩] []
    [(⟨2, 2⟩, leafBoard 33 30)] []

/-- Moves inside the 8-by-8 board. -/
def inBoard (m : Move) : Prop := 0 ≤ m.x ∧ m.x < 8 ∧ 0 ≤ m.y ∧ m.y < 8

instance (m : Move) : Decidable (inBoard m) := by
  unfold inBoard
  infer_instance

/-- Position offering the two corner moves, for the C8 witness. -/
def cornerBoard : Board :=
  Board.node 20 20 [⟨0, 0⟩, ⟨7, 7⟩] [] [⟨0, 0⟩, ⟨7, 7⟩] []
    [(⟨0, 0⟩, leafBoard 25 15), (⟨7, 7⟩, leafBoard 24 16)] []

/-! Shape of transposition tables: same keys, hashes, depths and best moves,
scores free.  The search depends on a table entry only through its key, hash
field, depth and best move — never through its stored score; this section
proves that and the gating of the probe, for C7. -/

/-- Correspondence of two table entries that may differ only in their stored
score. -/
def entryShape (p q : Nat × TTEntry) : Prop :=
  p.1 = q.1 ∧ p.2.hash = q.2.hash ∧ p.2.depth = q.2.depth ∧
    p.2.bestMove = q.2.bestMove

/-- Pointwise `entryShape` correspondence of two tables. -/
def tablesShape (t1 t2 : List (Nat × TTEntry)) : Prop :=
  List.Forall₂ entryShape t1 t2

/-- Correspondence of two search states: equal clocks, shape-equal tables. -/
def stShape (s1 s2 : SState) : Prop :=
  s1.checks = s2.checks ∧ tablesShape s1.table s2.table

/-! Equivalence of the pruned search with unpruned minimax at the full window,
for C2: fold lemmas over `max`/`min`, the well-formedness predicate on the
explored tree, and the bracket invariant of the child loop. -/

/-- Minimax values of the successfully applying children of `l`. -/
def childVals (board : Board) (turn : Turn) (f : Board → Int) (l : List Move) :
    List Int :=
  l.filterMap (fun m => (board.makeMove turn m).map f)

/-- Both association lists backing `makeMove` only apply moves that the
enumeration `getValidMoves` contains. -/
def domOk (b : Board) : Bool :=
  ((b.children Turn.BLACK).all
    (fun p => decide (p.1 ∈ b.getValidMoves Turn.BLACK))) &&
  ((b.children Turn.RED).all
    (fun p => decide (p.1 ∈ b.getValidMoves Turn.RED)))

/-- Well-formedness of the explored tree to makeMove-depth `d`: every board
reachable by at most `d` applications has a static evaluation within the
search window `[-INF, INF]` (checked for `BLACK`; the `RED` value is its exact
negation) and applies only enumerated moves. -/
def searchOk : Nat → Board → Bool
  | 0, b => decide (-INF ≤ evaluate b Turn.BLACK) && decide (evaluate b Turn.BLACK ≤ INF)
  | d + 1, b =>
      decide (-INF ≤ evaluate b Turn.BLACK) && decide (evaluate b Turn.BLACK ≤ INF) &&
      domOk b &&
      ((b.children Turn.BLACK ++ b.children Turn.RED).all (fun p => searchOk d p.2))

/-! Basic facts about the modelled clock, promotion and move ordering. -/

theorem timeUpAt_none (t : Nat) : timeUpAt none t = false := rfl

theorem bump_checks (st : SState) : (bump st).checks = st.checks + 1 := rfl

theorem bump_table (st : SState) : (bump st).table = st.table := rfl

theorem timeUpAt_mono (dl : Option Nat) (s t : Nat) (hst : s ≤ t)
    (h : timeUpAt dl s = true) : timeUpAt dl t = true := by
  cases dl with
  | none => simp [timeUpAt] at h
  | some d =>
    simp only [timeUpAt, decide_eq_true_eq] at h ⊢
    omega

theorem mem_promote (bm : Move) (l : List Move) (m : Move) :
    m ∈ promote bm l ↔ m = bm ∨ m ∈ l := by
  constructor
  · intro h
    rcases List.mem_cons.mp h with h | h
    · exact Or.inl h
    · exact Or.inr (List.mem_of_mem_filter h)
  · intro h
    rcases h with h | h
    · exact h ▸ List.mem_cons_self _ _
    · by_cases hbm : m = bm
      · exact hbm ▸ List.mem_cons_self _ _
      · refine List.mem_cons_of_mem _ (List.mem_filter.mpr ⟨h, ?_⟩)
        simp [hbm]

theorem orderMoves_perm (moves : List Move) (board : Board) (turn : Turn) :
    (orderMoves moves board turn).Perm moves := by
  unfold orderMoves
  split
  · exact List.Perm.refl _
  · have h1 := List.mergeSort_perm
      (moves.map fun m => (moveScore board turn (emptySquares board) m, m))
      (fun a b => decide (b.1 ≤ a.1))
    have h2 := h1.map (fun p : Int × Move => p.2)
    simpa [List.map_map, Function.comp_def] using h2

theorem mem_orderMoves (moves : List Move) (board : Board) (turn : Turn)
    (m : Move) : m ∈ orderMoves moves board turn ↔ m ∈ moves :=
  (orderMoves_perm moves board turn).mem_iff

theorem orderMoves_length (moves : List Move) (board : Board) (turn : Turn) :
    (orderMoves moves board turn).length = moves.length :=
  (orderMoves_perm moves board turn).length_eq

theorem headD_mem (l : List Move) (d : Move) (h : l ≠ []) : l.headD d ∈ l := by
  cases l with
  | nil => exact absurd rfl h
  | cons a t => exact List.mem_cons_self _ _

/-! Membership invariants of the root driver, for C10 and C1. -/

theorem rootMovesLoop_mem (hashFn : Board → Nat) (dl : Option Nat) (board : Board)
    (turn : Turn) (depth : Nat) (S : List Move) :
    ∀ (l : List Move) (iterScore : Int) (iterBest : Move) (st : SState),
      (∀ m ∈ l, m ∈ S) → iterBest ∈ S →
      (rootMovesLoop hashFn dl board turn depth l iterScore iterBest st).2.1 ∈ S := by
  intro l
  induction l with
  | nil => intro iterScore iterBest st _ hb; simpa [rootMovesLoop] using hb
  | cons m rest ih =>
    intro iterScore iterBest st hl hb
    rw [rootMovesLoop]
    split
    · exact hb
    · split
      · exact ih _ _ _ (fun x hx => hl x (List.mem_cons_of_mem _ hx)) hb
      · dsimp only
        split
        · exact ih _ _ _ (fun x hx => hl x (List.mem_cons_of_mem _ hx))
            (hl m (List.mem_cons_self _ _))
        · exact ih _ _ _ (fun x hx => hl x (List.mem_cons_of_mem _ hx)) hb

theorem idLoop_mem (hashFn : Board → Nat) (dl : Option Nat) (board : Board)
    (turn : Turn) (maxDepth : Int) (S : List Move) :
    ∀ (depth : Nat) (moves : List Move) (best : Move) (st : SState),
      (∀ m ∈ moves, m ∈ S) → best ∈ S →
      (idLoop hashFn dl board turn maxDepth depth moves best st).1 ∈ S := by
  intro depth moves best st
  induction depth, moves, best, st using idLoop.induct hashFn dl board turn maxDepth with
  | case1 depth moves best st hle ht =>
    intro _ hb
    rw [idLoop, dif_pos hle, if_pos ht]
    exact hb
  | case2 depth moves best st hle ht r ht2 ih =>
    intro hm hb
    rw [idLoop, dif_pos hle, if_neg ht, if_pos ht2]
    exact ih hm hb
  | case3 depth moves best st hle ht r ht2 ih =>
    intro hm hb
    rw [idLoop, dif_pos hle, if_neg ht, if_neg ht2]
    have hbest : r.2.1 ∈ S :=
      rootMovesLoop_mem hashFn dl board turn depth S moves (-INF) best (bump st) hm hb
    refine ih ?_ hbest
    intro m hmp
    rcases (mem_promote _ _ _).mp hmp with h | h
    · exact h ▸ hbest
    · exact hm m h
  | case4 depth moves best st hle =>
    intro _ hb
    rw [idLoop, dif_neg hle]
    exact hb

theorem rootSearch_mem (hashFn : Board → Nat) (dl : Option Nat) (board : Board)
    (turn : Turn) (maxDepth : Int) (st : SState)
    (h2 : 2 ≤ (board.getValidMoves turn).length) :
    (rootSearch hashFn dl board turn maxDepth st).1 ∈ board.getValidMoves turn := by
  have hne : board.getValidMoves turn ≠ [] := by
    intro h; rw [h] at h2; simp at h2
  have hlen : ¬(board.getValidMoves turn).length = 1 := by omega
  unfold rootSearch
  rw [if_neg hne, if_neg hlen]
  have hop : orderMoves (board.getValidMoves turn) board turn ≠ [] := by
    intro h
    have hl := orderMoves_length (board.getValidMoves turn) board turn
    rw [h] at hl
    simp at hl
    omega
  exact idLoop_mem hashFn dl board turn maxDepth _ 2 _ _ st
    (fun m hm => (mem_orderMoves _ _ _ m).mp hm)
    ((mem_orderMoves _ _ _ _).mp (headD_mem _ _ hop))

/-- C10: on a position with at least two enumerated legal moves, the move
returned by `rootSearch` is an element of the legal-move list enumerated at
entry, no matter when or whether the time budget expires; consequently, when
the collaborator's `validateMove` agrees with its `getValidMoves` enumeration,
the defensive fallback branch of `playMove` is not taken — `playMove` returns
the `rootSearch` move unchanged. -/
theorem rootSearch_move_enumerated (hashFn : Board → Nat) (dl : Option Nat)
    (board : Board) (turn : Turn) (maxDepth : Int) (st : SState)
    (h2 : 2 ≤ (board.getValidMoves turn).length) :
    (rootSearch hashFn dl board turn maxDepth st).1 ∈ board.getValidMoves turn ∧
    ((∀ m : Move, board.validateMove turn m = true ↔ m ∈ board.getValidMoves turn) →
      playMove hashFn dl board turn =
        (rootSearch hashFn dl board turn (targetDepth board) ⟨0, []⟩).1) := by
  refine ⟨rootSearch_mem _ _ _ _ _ _ h2, fun hagree => ?_⟩
  have hne : board.getValidMoves turn ≠ [] := by
    intro h; rw [h] at h2; simp at h2
  have hlen : ¬(board.getValidMoves turn).length = 1 := by omega
  unfold playMove
  rw [if_neg hne, if_neg hlen]
  have hv : board.validateMove turn
      (rootSearch hashFn dl board turn (targetDepth board) ⟨0, []⟩).1 = true :=
    (hagree _).mpr (rootSearch_mem _ _ _ _ _ _ h2)
  rw [if_pos hv]

/-- Witness for C10 at a concrete position, deadline and state. -/
theorem rootSearch_move_enumerated_w :
    (rootSearch hf0 (some 0) sampleBoard Turn.BLACK 4 ⟨0, []⟩).1
        ∈ sampleBoard.getValidMoves Turn.BLACK ∧
    ((∀ m : Move, sampleBoard.validateMove Turn.BLACK m = true ↔
        m ∈ sampleBoard.getValidMoves Turn.BLACK) →
      playMove hf0 (some 0) sampleBoard Turn.BLACK =
        (rootSearch hf0 (some 0) sampleBoard Turn.BLACK (targetDepth sampleBoard) ⟨0, []⟩).1) :=
  rootSearch_move_enumerated hf0 (some 0) sampleBoard Turn.BLACK 4 ⟨0, []⟩ (by decide)

/-- C1: whenever the side to move has at least one enumerated legal move and
the enumeration is sound for the collaborator's legality check, the move
returned by `playMove` passes that legality check — including the fallback
path, which returns the first enumerated legal move. -/
theorem playMove_legal (hashFn : Board → Nat) (dl : Option Nat) (board : Board)
    (turn : Turn) (hne : board.getValidMoves turn ≠ [])
    (hleg : ∀ m ∈ board.getValidMoves turn, board.validateMove turn m = true) :
    board.validateMove turn (playMove hashFn dl board turn) = true := by
  unfold playMove
  rw [if_neg hne]
  by_cases hlen : (board.getValidMoves turn).length = 1
  · rw [if_pos hlen]
    exact hleg _ (headD_mem _ _ hne)
  · rw [if_neg hlen]
    by_cases hv : board.validateMove turn
        (rootSearch hashFn dl board turn (targetDepth board) ⟨0, []⟩).1 = true
    · rw [if_pos hv]; exact hv
    · rw [if_neg hv]
      exact hleg _ (headD_mem _ _ hne)

/-- Witness for C1 at a concrete position and deadline. -/
theorem playMove_legal_w :
    sampleBoard.validateMove Turn.BLACK
      (playMove hf0 (some 0) sampleBoard Turn.BLACK) = true :=
  playMove_legal hf0 (some 0) sampleBoard Turn.BLACK (by decide) (by decide)

theorem idLoop_expired (hashFn : Board → Nat) (dl : Option Nat) (board : Board)
    (turn : Turn) (maxDepth : Int) (depth : Nat) (moves : List Move)
    (best : Move) (st : SState) (h : timeUpAt dl st.checks = true) :
    (idLoop hashFn dl board turn maxDepth depth moves best st).1 = best := by
  rw [idLoop]
  split
  · rfl
  · rfl

/-- C5: if an iteration of the iterative-deepening driver starts before the
budget expires but the budget has expired by that iteration's commit check,
the iteration's result is discarded and the driver returns the running best
move from the previously committed depth unchanged. -/
theorem idLoop_keeps_previous_best (hashFn : Board → Nat) (dl : Option Nat)
    (board : Board) (turn : Turn) (maxDepth : Int) (depth : Nat)
    (moves : List Move) (best : Move) (st : SState)
    (hle : (depth : Int) ≤ maxDepth)
    (hstart : timeUpAt dl st.checks = false)
    (hexp : timeUpAt dl
      (rootMovesLoop hashFn dl board turn depth moves (-INF) best (bump st)).2.2.checks
        = true) :
    (idLoop hashFn dl board turn maxDepth depth moves best st).1 = best := by
  rw [idLoop, dif_pos hle]
  split
  · rfl
  · simp only []
    split
    · exact idLoop_expired _ _ _ _ _ _ _ _ _
        (timeUpAt_mono dl _ _ (by simp only [bump]; omega) hexp)
    · next ht2 => exact absurd hexp ht2

/-- Witness for C5 at a concrete position, deadline and state: the deadline
falls inside the depth-2 iteration, and the driver returns the incoming best
move unchanged. -/
theorem idLoop_keeps_previous_best_w :
    (idLoop hf0 (some 1) sampleBoard Turn.BLACK 4 2 [⟨2, 3⟩, ⟨4, 5⟩] ⟨2, 3⟩ ⟨0, []⟩).1
      = ⟨2, 3⟩ :=
  idLoop_keeps_previous_best hf0 (some 1) sampleBoard Turn.BLACK 4 2 _ _ _
    (by decide) (by decide) (by decide)

/-! Iteration-depth bookkeeping of the deepening driver, for C3. -/

theorem idLoop_depths_none (hashFn : Board → Nat) (board : Board) (turn : Turn)
    (maxDepth : Int) :
    ∀ (depth : Nat) (moves : List Move) (best : Move) (st : SState),
      (idLoop hashFn none board turn maxDepth depth moves best st).2.1
        = depthsFrom depth maxDepth := by
  intro depth moves best st
  induction depth, moves, best, st using idLoop.induct hashFn none board turn maxDepth with
  | case1 depth moves best st hle ht =>
    simp [timeUpAt] at ht
  | case2 depth moves best st hle ht r ht2 ih =>
    simp [timeUpAt] at ht2
  | case3 depth moves best st hle ht r ht2 ih =>
    rw [idLoop, dif_pos hle, if_neg ht, if_neg ht2]
    simp only []
    rw [ih]
    conv_rhs => rw [depthsFrom]
    rw [dif_pos hle]
  | case4 depth moves best st hle =>
    rw [idLoop, dif_neg hle, depthsFrom, dif_neg hle]

theorem depthsFrom_le :
    ∀ (k : Nat) (maxDepth : Int), ∀ d ∈ depthsFrom k maxDepth, (d : Int) ≤ maxDepth := by
  intro k maxDepth
  induction k, maxDepth using depthsFrom.induct with
  | case1 k maxDepth hle ih =>
    intro d hd
    rw [depthsFrom, dif_pos hle] at hd
    rcases List.mem_cons.mp hd with h | h
    · exact h ▸ hle
    · exact ih d h
  | case2 k maxDepth hle =>
    intro d hd
    rw [depthsFrom, dif_neg hle] at hd
    exact absurd hd (List.not_mem_nil d)

theorem mem_depthsFrom :
    ∀ (k : Nat) (maxDepth : Int), 0 ≤ maxDepth → (k : Int) ≤ maxDepth →
      (maxDepth.toNat - k) % 2 = 0 → maxDepth.toNat ∈ depthsFrom k maxDepth := by
  intro k maxDepth
  induction k, maxDepth using depthsFrom.induct with
  | case1 k maxDepth hle ih =>
    intro hpos _ hpar
    rw [depthsFrom, dif_pos hle]
    by_cases hk : k = maxDepth.toNat
    · exact hk ▸ List.mem_cons_self _ _
    · have hklt : k < maxDepth.toNat := by omega
      have hk2 : ((k + 2 : Nat) : Int) ≤ maxDepth := by push_cast; omega
      exact List.mem_cons_of_mem _ (ih hpos hk2 (by omega))
  | case2 k maxDepth hle =>
    intro _ hc _
    exact absurd hc hle

theorem targetDepth_endgame (board : Board) (h12 : emptySquares board ≤ 12) :
    targetDepth board = emptySquares board := by
  unfold targetDepth MAX_DEPTH
  simp only []
  rw [if_pos h12]
  omega

/-- C3 (amended): on a position with an even number `e` of empty cells,
`2 ≤ e ≤ 12`, and more than one legal move, when the time budget never
expires the iterative-deepening driver runs at the adaptive endgame target
depth `e` and its deepest completed iteration searches exactly to depth `e`
(every completed iteration depth is at most `e`, and depth `e` itself is
completed).  With an odd empty count the even-step schedule stops one ply
short of the empty count, as the counterexample shows. -/
theorem rootSearch_endgame_depths (hashFn : Board → Nat) (board : Board)
    (turn : Turn) (st : SState)
    (hmoves : 2 ≤ (board.getValidMoves turn).length)
    (h2 : 2 ≤ emptySquares board) (h12 : emptySquares board ≤ 12)
    (heven : emptySquares board % 2 = 0) :
    (emptySquares board).toNat
        ∈ (rootSearch hashFn none board turn (targetDepth board) st).2.1 ∧
      ∀ d ∈ (rootSearch hashFn none board turn (targetDepth board) st).2.1,
        (d : Int) ≤ emptySquares board := by
  have hne : board.getValidMoves turn ≠ [] := by
    intro h; rw [h] at hmoves; simp at hmoves
  have hlen : ¬(board.getValidMoves turn).length = 1 := by omega
  have ht := targetDepth_endgame board h12
  unfold rootSearch
  rw [if_neg hne, if_neg hlen]
  rw [idLoop_depths_none, ht]
  constructor
  · exact mem_depthsFrom 2 _ (by omega) (by omega) (by omega)
  · exact depthsFrom_le 2 _

unseal List.merge List.mergeSort alphaBeta idLoop in
/-- Counterexample to C3 as stated: on a position with 11 empty cells and two
legal moves, with an inexhaustible budget, the completed iteration depths are
2, 4, 6, 8, 10 — the deepest completed iteration searches to depth 10, not to
the empty-cell count 11. -/
theorem rootSearch_endgame_depths_cex :
    emptySquares oddEndgameBoard = 11 ∧
    2 ≤ (oddEndgameBoard.getValidMoves Turn.BLACK).length ∧
    (rootSearch hf0 none oddEndgameBoard Turn.BLACK (targetDepth oddEndgameBoard)
        ⟨0, []⟩).2.1 = [2, 4, 6, 8, 10] :=
  ⟨by decide, by decide, by decide⟩

theorem rootSearch_endgame_depths_w :
    (emptySquares evenEndgameBoard).toNat
        ∈ (rootSearch hf0 none evenEndgameBoard Turn.BLACK
            (targetDepth evenEndgameBoard) ⟨0, []⟩).2.1 ∧
      ∀ d ∈ (rootSearch hf0 none evenEndgameBoard Turn.BLACK
          (targetDepth evenEndgameBoard) ⟨0, []⟩).2.1,
        (d : Int) ≤ emptySquares evenEndgameBoard :=
  rootSearch_endgame_depths hf0 evenEndgameBoard Turn.BLACK ⟨0, []⟩
    (by decide) (by decide) (by decide) (by decide)

/-! Unfolding lemmas for `alphaBeta`, and the value cases used by C4. -/

theorem opponent_opponent (t : Turn) : opponent (opponent t) = t := by
  cases t <;> rfl

theorem alphaBeta_timeout (hashFn : Board → Nat) (dl : Option Nat) (board : Board)
    (turn : Turn) (depth : Nat) (alpha beta : Int) (persp : Turn) (st : SState)
    (h : timeUpAt dl st.checks = true) :
    alphaBeta hashFn dl board turn depth alpha beta persp st
      = (evaluate board persp, bump st) := by
  rw [alphaBeta, if_pos h]

theorem alphaBeta_leaf (hashFn : Board → Nat) (dl : Option Nat) (board : Board)
    (turn : Turn) (depth : Nat) (alpha beta : Int) (persp : Turn) (st : SState)
    (h : timeUpAt dl st.checks = false)
    (h1 : depth = 0 ∨ (board.getValidMoves turn = [] ∧
      board.getValidMoves (opponent turn) = [])) :
    alphaBeta hashFn dl board turn depth alpha beta persp st
      = (evaluate board persp, bump st) := by
  rw [alphaBeta, if_neg (by simp [h])]
  simp only []
  rw [dif_pos h1]

theorem alphaBeta_pass (hashFn : Board → Nat) (dl : Option Nat) (board : Board)
    (turn : Turn) (depth : Nat) (alpha beta : Int) (persp : Turn) (st : SState)
    (h : timeUpAt dl st.checks = false)
    (h1 : ¬(depth = 0 ∨ (board.getValidMoves turn = [] ∧
      board.getValidMoves (opponent turn) = [])))
    (h2 : board.getValidMoves turn = []) :
    alphaBeta hashFn dl board turn depth alpha beta persp st
      = alphaBeta hashFn dl board (opponent turn) depth alpha beta persp (bump st) := by
  rw [alphaBeta, if_neg (by simp [h])]
  simp only []
  rw [dif_neg h1, dif_pos h2]

theorem alphaBeta_node (hashFn : Board → Nat) (dl : Option Nat) (board : Board)
    (turn : Turn) (depth : Nat) (alpha beta : Int) (persp : Turn) (st : SState)
    (h : timeUpAt dl st.checks = false)
    (h1 : ¬(depth = 0 ∨ (board.getValidMoves turn = [] ∧
      board.getValidMoves (opponent turn) = [])))
    (h2 : ¬board.getValidMoves turn = []) :
    alphaBeta hashFn dl board turn depth alpha beta persp st =
      (let ordered := orderMoves
          (ttProbe st.table (hashFn board) depth (board.getValidMoves turn)) board turn
       let maximizing := turn == persp
       let r := abLoop dl board turn maximizing
          (fun nb a b s => alphaBeta hashFn dl nb (opponent turn) (depth - 1) a b persp s)
          ordered alpha beta (if maximizing then -INF else INF) (ordered.headD ⟨0, 0⟩)
          (bump st)
       if timeUpAt dl r.2.2.checks then (r.1, bump r.2.2)
       else (r.1, { checks := r.2.2.checks + 1,
                    table := ttStore r.2.2.table (hashFn board)
                      ⟨hashFn board, depth, r.1, r.2.1⟩ })) := by
  rw [alphaBeta, if_neg (by simp [h])]
  simp only []
  rw [dif_neg h1, dif_neg h2]

theorem abLoop_val (dl : Option Nat) (board : Board) (turn : Turn)
    (maximizing : Bool) (recur : Board → Int → Int → SState → Int × SState) :
    ∀ (l : List Move) (alpha beta bv : Int) (bm : Move) (st : SState),
      (abLoop dl board turn maximizing recur l alpha beta bv bm st).1 = bv ∨
      ∃ m nb a' b' st', board.makeMove turn m = some nb ∧
        (abLoop dl board turn maximizing recur l alpha beta bv bm st).1
          = (recur nb a' b' st').1 := by
  intro l
  induction l with
  | nil => intro alpha beta bv bm st; exact Or.inl rfl
  | cons m rest ih =>
    intro alpha beta bv bm st
    rw [abLoop]
    split
    · exact Or.inl rfl
    · split
      · next hmk => exact ih _ _ _ _ _
      · next nb hmk =>
        dsimp only
        by_cases hmax : maximizing = true
        · rw [if_pos hmax]
          split
          · by_cases hgt : (recur nb alpha beta (bump st)).1 > bv
            · rw [if_pos hgt]
              exact Or.inr ⟨m, nb, alpha, beta, bump st, hmk, rfl⟩
            · rw [if_neg hgt]
              exact Or.inl rfl
          · rcases ih (max alpha (recur nb alpha beta (bump st)).1) beta
                (if (recur nb alpha beta (bump st)).1 > bv
                  then (recur nb alpha beta (bump st)).1 else bv)
                (if (recur nb alpha beta (bump st)).1 > bv then m else bm)
                (recur nb alpha beta (bump st)).2 with hrec | hrec
            · rw [hrec]
              by_cases hgt : (recur nb alpha beta (bump st)).1 > bv
              · rw [if_pos hgt]
                exact Or.inr ⟨m, nb, alpha, beta, bump st, hmk, rfl⟩
              · rw [if_neg hgt]
                exact Or.inl rfl
            · rcases hrec with ⟨m', nb', a', b', st', hmk', heq⟩
              exact Or.inr ⟨m', nb', a', b', st', hmk', heq⟩
        · rw [if_neg hmax]
          split
          · by_cases hlt : (recur nb alpha beta (bump st)).1 < bv
            · rw [if_pos hlt]
              exact Or.inr ⟨m, nb, alpha, beta, bump st, hmk, rfl⟩
            · rw [if_neg hlt]
              exact Or.inl rfl
          · rcases ih alpha (min beta (recur nb alpha beta (bump st)).1)
                (if (recur nb alpha beta (bump st)).1 < bv
                  then (recur nb alpha beta (bump st)).1 else bv)
                (if (recur nb alpha beta (bump st)).1 < bv then m else bm)
                (recur nb alpha beta (bump st)).2 with hrec | hrec
            · rw [hrec]
              by_cases hlt : (recur nb alpha beta (bump st)).1 < bv
              · rw [if_pos hlt]
                exact Or.inr ⟨m, nb, alpha, beta, bump st, hmk, rfl⟩
              · rw [if_neg hlt]
                exact Or.inl rfl
            · rcases hrec with ⟨m', nb', a', b', st', hmk', heq⟩
              exact Or.inr ⟨m', nb', a', b', st', hmk', heq⟩

theorem alphaBeta_node_val (hashFn : Board → Nat) (dl : Option Nat) (board : Board)
    (turn : Turn) (depth : Nat) (alpha beta : Int) (persp : Turn) (st : SState)
    (h : timeUpAt dl st.checks = false)
    (h1 : ¬(depth = 0 ∨ (board.getValidMoves turn = [] ∧
      board.getValidMoves (opponent turn) = [])))
    (h2 : ¬board.getValidMoves turn = []) :
    (alphaBeta hashFn dl board turn depth alpha beta persp st).1 =
      (abLoop dl board turn (turn == persp)
        (fun nb a b s => alphaBeta hashFn dl nb (opponent turn) (depth - 1) a b persp s)
        (orderMoves (ttProbe st.table (hashFn board) depth (board.getValidMoves turn))
          board turn)
        alpha beta (if (turn == persp) then -INF else INF)
        ((orderMoves (ttProbe st.table (hashFn board) depth (board.getValidMoves turn))
          board turn).headD ⟨0, 0⟩)
        (bump st)).1 := by
  rw [alphaBeta_node hashFn dl board turn depth alpha beta persp st h h1 h2]
  simp only []
  split <;> split <;> rfl

theorem alphaBeta_val_cases_node (hashFn : Board → Nat) (dl : Option Nat)
    (board : Board) (turn : Turn) (depth : Nat) (alpha beta : Int) (persp : Turn)
    (st : SState) (h : timeUpAt dl st.checks = false)
    (h1 : ¬(depth = 0 ∨ (board.getValidMoves turn = [] ∧
      board.getValidMoves (opponent turn) = [])))
    (h2 : ¬board.getValidMoves turn = []) :
    (alphaBeta hashFn dl board turn depth alpha beta persp st).1 = -INF ∨
    (alphaBeta hashFn dl board turn depth alpha beta persp st).1 = INF ∨
    ∃ m nb a' b' st', board.makeMove turn m = some nb ∧
      (alphaBeta hashFn dl board turn depth alpha beta persp st).1
        = (alphaBeta hashFn dl nb (opponent turn) (depth - 1) a' b' persp st').1 := by
  rw [alphaBeta_node_val hashFn dl board turn depth alpha beta persp st h h1 h2]
  rcases abLoop_val dl board turn (turn == persp)
      (fun nb a b s => alphaBeta hashFn dl nb (opponent turn) (depth - 1) a b persp s)
      (orderMoves (ttProbe st.table (hashFn board) depth (board.getValidMoves turn))
        board turn)
      alpha beta (if (turn == persp) then -INF else INF)
      ((orderMoves (ttProbe st.table (hashFn board) depth (board.getValidMoves turn))
        board turn).headD ⟨0, 0⟩)
      (bump st) with hv | ⟨m, nb, a', b', st', hmk, heq⟩
  · rw [hv]
    by_cases hmax : (turn == persp) = true
    · rw [if_pos hmax]; exact Or.inl rfl
    · rw [if_neg hmax]; exact Or.inr (Or.inl rfl)
  · exact Or.inr (Or.inr ⟨m, nb, a', b', st', hmk, heq⟩)

theorem alphaBeta_val_cases (hashFn : Board → Nat) (dl : Option Nat) (board : Board)
    (turn : Turn) (depth : Nat) (alpha beta : Int) (persp : Turn) (st : SState) :
    (alphaBeta hashFn dl board turn depth alpha beta persp st).1 = evaluate board persp ∨
    (alphaBeta hashFn dl board turn depth alpha beta persp st).1 = -INF ∨
    (alphaBeta hashFn dl board turn depth alpha beta persp st).1 = INF ∨
    ∃ t' m nb a' b' st', board.makeMove t' m = some nb ∧
      (alphaBeta hashFn dl board turn depth alpha beta persp st).1
        = (alphaBeta hashFn dl nb (opponent t') (depth - 1) a' b' persp st').1 := by
  by_cases h : timeUpAt dl st.checks = true
  · left; rw [alphaBeta_timeout _ _ _ _ _ _ _ _ _ h]
  · have h' : timeUpAt dl st.checks = false := by simpa using h
    by_cases h1 : depth = 0 ∨ (board.getValidMoves turn = [] ∧
        board.getValidMoves (opponent turn) = [])
    · left; rw [alphaBeta_leaf _ _ _ _ _ _ _ _ _ h' h1]
    · by_cases h2 : board.getValidMoves turn = []
      · rw [alphaBeta_pass _ _ _ _ _ _ _ _ _ h' h1 h2]
        have h2' : ¬board.getValidMoves (opponent turn) = [] :=
          fun hc => h1 (Or.inr ⟨h2, hc⟩)
        have hd : ¬depth = 0 := fun hc => h1 (Or.inl hc)
        by_cases hin : timeUpAt dl (bump st).checks = true
        · left; rw [alphaBeta_timeout _ _ _ _ _ _ _ _ _ hin]
        · have hin' : timeUpAt dl (bump st).checks = false := by simpa using hin
          have h1' : ¬(depth = 0 ∨ (board.getValidMoves (opponent turn) = [] ∧
              board.getValidMoves (opponent (opponent turn)) = [])) := by
            rw [opponent_opponent]
            rintro (hc | ⟨hc, _⟩)
            · exact hd hc
            · exact h2' hc
          rcases alphaBeta_val_cases_node hashFn dl board (opponent turn) depth
              alpha beta persp (bump st) hin' h1' h2' with hc | hc | hc
          · exact Or.inr (Or.inl hc)
          · exact Or.inr (Or.inr (Or.inl hc))
          · rcases hc with ⟨m, nb, a', b', st', hmk, heq⟩
            exact Or.inr (Or.inr (Or.inr
              ⟨opponent turn, m, nb, a', b', st', hmk, heq⟩))
      · rcases alphaBeta_val_cases_node hashFn dl board turn depth alpha beta persp
            st h' h1 h2 with hc | hc | hc
        · exact Or.inr (Or.inl hc)
        · exact Or.inr (Or.inr (Or.inl hc))
        · rcases hc with ⟨m, nb, a', b', st', hmk, heq⟩
          exact Or.inr (Or.inr (Or.inr ⟨turn, m, nb, a', b', st', hmk, heq⟩))

/-- C4 (amended): once the time budget has expired at a node's entry check,
`alphaBeta` returns exactly the static evaluation of the node's position; and
in general every value `alphaBeta` returns is either the static evaluation of
the node's position, or the value of one of the depth-minus-one child searches
it completed (possibly after a pass), or the untouched loop sentinel `-INF`
(maximizing) / `+INF` (minimizing) when the child loop was cut off — in
particular by expiry — before any child search completed. -/
theorem alphaBeta_expiry_value (hashFn : Board → Nat) (dl : Option Nat)
    (board : Board) (turn : Turn) (depth : Nat) (alpha beta : Int) (persp : Turn)
    (st : SState) :
    (timeUpAt dl st.checks = true →
      (alphaBeta hashFn dl board turn depth alpha beta persp st).1
        = evaluate board persp) ∧
    ((alphaBeta hashFn dl board turn depth alpha beta persp st).1
        = evaluate board persp ∨
      (alphaBeta hashFn dl board turn depth alpha beta persp st).1 = -INF ∨
      (alphaBeta hashFn dl board turn depth alpha beta persp st).1 = INF ∨
      ∃ t' m nb a' b' st', board.makeMove t' m = some nb ∧
        (alphaBeta hashFn dl board turn depth alpha beta persp st).1
          = (alphaBeta hashFn dl nb (opponent t') (depth - 1) a' b' persp st').1) :=
  ⟨fun h => by rw [alphaBeta_timeout _ _ _ _ _ _ _ _ _ h],
   alphaBeta_val_cases hashFn dl board turn depth alpha beta persp st⟩

/-- Witness for C4 (amended) at a concrete input with the budget expired at
entry. -/
theorem alphaBeta_expiry_value_w :
    (alphaBeta hf0 (some 0) sampleBoard Turn.BLACK 2 (-INF) INF Turn.BLACK
        ⟨0, []⟩).1 = evaluate sampleBoard Turn.BLACK :=
  (alphaBeta_expiry_value hf0 (some 0) sampleBoard Turn.BLACK 2 (-INF) INF
    Turn.BLACK ⟨0, []⟩).1 (by decide)

unseal alphaBeta in
/-- Counterexample to C4 as stated: with the deadline falling between the
node's entry check and the first child-loop check, `alphaBeta` returns the
sentinel `-1000000`, while the static evaluation of the node's position is `1`
and the only child's position (terminal, so every search of it yields its
static evaluation) also evaluates to `1` — the returned value is neither the
static evaluation nor the best score among the (zero) children explored before
expiry. -/
theorem alphaBeta_expiry_value_cex :
    (alphaBeta hf0 (some 1) timeoutBoard Turn.BLACK 2 (-INF) INF Turn.BLACK
        ⟨0, []⟩).1 = -1000000 ∧
    evaluate timeoutBoard Turn.BLACK = 1 ∧
    evaluate (leafBoard 33 30) Turn.BLACK = 1 :=
  ⟨by decide, by decide, by decide⟩

/-! Sign symmetry of the static evaluation, for C6. -/

theorem neg_trichotomy (a b : Nat) :
    (if a < b then (100 : Int) else if b < a then -100 else 0)
      = -(if b < a then (100 : Int) else if a < b then -100 else 0) := by
  rcases Nat.lt_trichotomy a b with h | h | h
  · rw [if_pos h, if_neg (Nat.lt_asymm h), if_pos h]
    norm_num
  · subst h
    rw [if_neg (lt_irrefl a), if_neg (lt_irrefl a)]
    norm_num
  · rw [if_neg (Nat.lt_asymm h), if_pos h, if_pos h]

theorem cornerScore_swap (board : Board) (c : Int × Int) :
    cornerScore board Turn.RED c = - cornerScore board Turn.BLACK c := by
  unfold cornerScore
  simp only [opponent]
  rw [show (!board.validateMove Turn.RED ⟨c.1, c.2⟩ &&
        !board.validateMove Turn.BLACK ⟨c.1, c.2⟩)
      = (!board.validateMove Turn.BLACK ⟨c.1, c.2⟩ &&
        !board.validateMove Turn.RED ⟨c.1, c.2⟩) from Bool.and_comm _ _]
  split
  · exact neg_trichotomy _ _
  · norm_num

theorem evaluateCorners_swap (board : Board) :
    evaluateCorners board Turn.RED = - evaluateCorners board Turn.BLACK := by
  unfold evaluateCorners
  simp only [List.map_cons, List.map_nil, List.sum_cons, List.sum_nil,
    cornerScore_swap]
  ring

theorem evaluatePositional_swap (l1 l2 : List Move) :
    evaluatePositional l2 l1 = - evaluatePositional l1 l2 := by
  unfold evaluatePositional
  ring

theorem evaluateStability_swap (board : Board) :
    evaluateStability board Turn.RED = - evaluateStability board Turn.BLACK := by
  unfold evaluateStability
  simp only [opponent]
  rw [evaluateCorners_swap]
  ring

theorem evaluate_black_neg_red (board : Board) :
    evaluate board Turn.BLACK = - evaluate board Turn.RED := by
  unfold evaluate
  simp only [opponent]
  rw [← Int.neg_tdiv]
  congr 1
  rw [evaluateCorners_swap, evaluateStability_swap,
    evaluatePositional_swap (board.getValidMoves Turn.BLACK)
      (board.getValidMoves Turn.RED)]
  simp only [if_neg (show ¬(Turn.RED = Turn.BLACK) by decide), if_true]
  ring

/-- C6: swapping the perspective negates the static evaluation exactly —
`evaluate(board, BLACK) = -evaluate(board, RED)` for every board.  The double
combination is modelled by exact 100-scaled integer arithmetic; the claimed
identity is negation invariance, which the C++ `double` computation and the
truncating `(int)` cast also preserve exactly, since IEEE rounding and
truncation toward zero are symmetric under negation. -/
theorem evaluate_symm (board : Board) :
    evaluate board Turn.BLACK = - evaluate board Turn.RED :=
  evaluate_black_neg_red board

/-! Bounds on the composite ordering score and the corners-first property of
the move orderer, for C8. -/

theorem posWeight_le (m : Move) : posWeight m ≤ 100 := by
  unfold posWeight
  rcases h1 : POSITION_WEIGHTS[m.x.toNat]? with _ | row
  · simp
  · have hrow : row ∈ POSITION_WEIGHTS := List.getElem?_mem h1
    rcases h2 : row[m.y.toNat]? with _ | v
    · simp [h2]
    · have hv : v ∈ row := List.getElem?_mem h2
      have hall : ∀ r ∈ POSITION_WEIGHTS, ∀ x ∈ r, x ≤ 100 := by decide
      simp only [Option.getD_some, h2]
      exact hall row hrow v hv

theorem moveScore_corner_ge (board : Board) (turn : Turn) (empty : Int) (m : Move)
    (hc : isCorner m = true) (nb : Board)
    (hmk : board.makeMove turn m = some nb)
    (hlen : (nb.getValidMoves (opponent turn)).length ≤ 64) :
    96800 ≤ moveScore board turn empty m := by
  unfold moveScore
  simp only [if_pos hc, hmk]
  omega

theorem moveScore_noncorner_le (board : Board) (turn : Turn) (empty : Int) (m : Move)
    (hc : isCorner m = false) :
    moveScore board turn empty m ≤ 10000 := by
  have hp : posWeight m ≤ 100 := posWeight_le m
  unfold moveScore
  simp only []
  rw [if_neg (by simp [hc])]
  rcases hmk : board.makeMove turn m with _ | nb <;> simp only [hmk] <;>
    split <;> omega

theorem orderMoves_pairwise (moves : List Move) (board : Board) (turn : Turn) :
    List.Pairwise (fun a b => moveScore board turn (emptySquares board) b
      ≤ moveScore board turn (emptySquares board) a) (orderMoves moves board turn) := by
  unfold orderMoves
  split
  · next hsmall =>
    cases moves with
    | nil => exact List.Pairwise.nil
    | cons a t =>
      cases t with
      | nil => simp
      | cons b t2 => simp at hsmall
  · have hpair : List.Pairwise (fun a b : Int × Move => (decide (b.1 ≤ a.1)) = true)
        ((moves.map (fun m => (moveScore board turn (emptySquares board) m, m))).mergeSort
          (fun a b => decide (b.1 ≤ a.1))) := by
      apply List.sorted_mergeSort
      · intro a b c hab hbc
        simp only [decide_eq_true_eq] at *
        omega
      · intro a b
        simp only [Bool.or_eq_true, decide_eq_true_eq]
        omega
    have hmemprop : ∀ p ∈ (moves.map
        (fun m => (moveScore board turn (emptySquares board) m, m))).mergeSort
          (fun a b => decide (b.1 ≤ a.1)),
        p.1 = moveScore board turn (emptySquares board) p.2 := by
      intro p hp
      have hp2 : p ∈ moves.map
          (fun m => (moveScore board turn (emptySquares board) m, m)) :=
        (List.mergeSort_perm _ _).subset hp
      rcases List.mem_map.mp hp2 with ⟨m, _, rfl⟩
      rfl
    rw [List.pairwise_map]
    refine hpair.imp_of_mem ?_
    intro p q hp hq hrel
    simp only [decide_eq_true_eq] at hrel
    rw [← hmemprop p hp, ← hmemprop q hq]
    exact hrel

theorem length_le_card64 (l : List Move) (hnd : l.Nodup)
    (hin : ∀ m ∈ l, inBoard m) : l.length ≤ 64 := by
  have hinj : ∀ x ∈ l, ∀ y ∈ l,
      (fun m : Move => (⟨(m.x.toNat * 8 + m.y.toNat) % 64,
        Nat.mod_lt _ (by omega)⟩ : Fin 64)) x =
      (fun m : Move => (⟨(m.x.toNat * 8 + m.y.toNat) % 64,
        Nat.mod_lt _ (by omega)⟩ : Fin 64)) y → x = y := by
    intro x hx y hy hxy
    obtain ⟨hx0, hx8, hx0', hx8'⟩ := hin x hx
    obtain ⟨hy0, hy8, hy0', hy8'⟩ := hin y hy
    simp only [Fin.mk.injEq] at hxy
    have hxx : x.x = y.x := by omega
    have hyy : x.y = y.y := by omega
    cases x; cases y
    simp_all
  have hmap := (List.Nodup.map_on hinj hnd)
  have := List.Nodup.length_le_card hmap
  simpa using this

/-- C8: on a move list whose members all pass the collaborator's legality
check, with the collaborator consistent (a validated move applies successfully
and yields a position whose legal-move enumeration is duplicate-free and
on-board), every corner move precedes every non-corner move in the output of
`orderMoves`: whenever a later output position holds a corner move, every
earlier output position holds a corner move too. -/
theorem orderMoves_corners_first (moves : List Move) (board : Board) (turn : Turn)
    (hleg : ∀ m ∈ moves, board.validateMove turn m = true)
    (hcons : ∀ m ∈ moves, board.validateMove turn m = true →
      ∃ nb, board.makeMove turn m = some nb ∧
        (nb.getValidMoves (opponent turn)).Nodup ∧
        ∀ mv ∈ nb.getValidMoves (opponent turn), inBoard mv) :
    ∀ (i j : Nat) (hi : i < (orderMoves moves board turn).length)
      (hj : j < (orderMoves moves board turn).length), i < j →
      isCorner ((orderMoves moves board turn).get ⟨j, hj⟩) = true →
      isCorner ((orderMoves moves board turn).get ⟨i, hi⟩) = true := by
  intro i j hi hj hij hcj
  by_contra hni
  have hni' : isCorner ((orderMoves moves board turn).get ⟨i, hi⟩) = false := by
    simpa using hni
  have hsort := List.pairwise_iff_get.mp (orderMoves_pairwise moves board turn)
    ⟨i, hi⟩ ⟨j, hj⟩ hij
  have hmemj : (orderMoves moves board turn).get ⟨j, hj⟩ ∈ moves :=
    (mem_orderMoves _ _ _ _).mp (List.get_mem _ _ _)
  obtain ⟨nb, hmk, hnd, hin⟩ := hcons _ hmemj (hleg _ hmemj)
  have hlow := moveScore_noncorner_le board turn (emptySquares board) _ hni'
  have hhigh := moveScore_corner_ge board turn (emptySquares board) _ hcj nb hmk
    (length_le_card64 _ hnd hin)
  omega

unseal List.merge List.mergeSort in
/-- Witness for C8 at a concrete board and move list, instantiated at output
positions 0 < 1: the output position 1 holds a corner move, and the theorem
places a corner move at position 0. -/
theorem orderMoves_corners_first_w :
    isCorner ((orderMoves [⟨0, 0⟩, ⟨7, 7⟩] cornerBoard Turn.BLACK).get
        ⟨1, lt_of_lt_of_eq (Nat.succ_lt_succ (Nat.zero_lt_succ 0))
          (orderMoves_length [⟨0, 0⟩, ⟨7, 7⟩] cornerBoard Turn.BLACK).symm⟩) = true ∧
    isCorner ((orderMoves [⟨0, 0⟩, ⟨7, 7⟩] cornerBoard Turn.BLACK).get
        ⟨0, lt_of_lt_of_eq (Nat.zero_lt_succ 1)
          (orderMoves_length [⟨0, 0⟩, ⟨7, 7⟩] cornerBoard Turn.BLACK).symm⟩) = true :=
  by
  have h1 : isCorner ((orderMoves [⟨0, 0⟩, ⟨7, 7⟩] cornerBoard Turn.BLACK).get
      ⟨1, lt_of_lt_of_eq (Nat.succ_lt_succ (Nat.zero_lt_succ 0))
        (orderMoves_length [⟨0, 0⟩, ⟨7, 7⟩] cornerBoard Turn.BLACK).symm⟩) = true := by
    decide
  refine ⟨h1, ?_⟩
  exact orderMoves_corners_first [⟨0, 0⟩, ⟨7, 7⟩] cornerBoard Turn.BLACK
    (by decide)
    (by
      intro m hm _
      fin_cases hm
      · exact ⟨leafBoard 25 15, rfl, by decide, by decide⟩
      · exact ⟨leafBoard 24 16, rfl, by decide, by decide⟩)
    0 1 _ _ (by decide) h1

theorem stShape_bump (s1 s2 : SState) (h : stShape s1 s2) :
    stShape (bump s1) (bump s2) :=
  ⟨by simp [bump, h.1], h.2⟩

theorem tablesShape_find?_none (t1 t2 : List (Nat × TTEntry))
    (h : tablesShape t1 t2) (k : Nat)
    (hf : t1.find? (fun p => p.1 == k) = none) :
    t2.find? (fun p => p.1 == k) = none := by
  induction h with
  | nil => rfl
  | @cons a b l1 l2 hpq hrest ih =>
    by_cases hb : (a.1 == k) = true
    · simp only [List.find?, hb] at hf
      exact absurd hf (by simp)
    · have hb' : (a.1 == k) = false := by simpa using hb
      have hb2 : (b.1 == k) = false := by
        rw [← hpq.1]; exact hb'
      simp only [List.find?, hb'] at hf
      simp only [List.find?, hb2]
      exact ih hf

theorem tablesShape_find?_some (t1 t2 : List (Nat × TTEntry))
    (h : tablesShape t1 t2) (k : Nat) (p : Nat × TTEntry)
    (hf : t1.find? (fun q => q.1 == k) = some p) :
    ∃ q, t2.find? (fun q' => q'.1 == k) = some q ∧ entryShape p q := by
  induction h with
  | nil => simp at hf
  | @cons a b l1 l2 hpq hrest ih =>
    by_cases hb : (a.1 == k) = true
    · simp only [List.find?, hb] at hf
      have hb2 : (b.1 == k) = true := by
        rw [← hpq.1]; exact hb
      injection hf with hf
      exact ⟨b, by simp only [List.find?, hb2], hf ▸ hpq⟩
    · have hb' : (a.1 == k) = false := by simpa using hb
      have hb2 : (b.1 == k) = false := by
        rw [← hpq.1]; exact hb'
      simp only [List.find?, hb'] at hf
      obtain ⟨q, hfq, hsh⟩ := ih hf
      exact ⟨q, by simp only [List.find?, hb2]; exact hfq, hsh⟩

theorem ttProbe_shape (t1 t2 : List (Nat × TTEntry)) (h : tablesShape t1 t2)
    (k : Nat) (depth : Nat) (moves : List Move) :
    ttProbe t1 k depth moves = ttProbe t2 k depth moves := by
  unfold ttProbe
  rcases hf : t1.find? (fun p => p.1 == k) with _ | p
  · rw [hf, tablesShape_find?_none t1 t2 h k hf]
  · obtain ⟨q, hf2, hk, hh, hd, hbm⟩ := tablesShape_find?_some t1 t2 h k p hf
    rw [hf, hf2]
    simp only [hh, hd, hbm]

theorem tablesShape_filter (t1 t2 : List (Nat × TTEntry)) (h : tablesShape t1 t2)
    (k : Nat) :
    tablesShape (t1.filter (fun p => !(p.1 == k))) (t2.filter (fun p => !(p.1 == k))) := by
  induction h with
  | nil => exact List.Forall₂.nil
  | @cons a b l1 l2 hpq hrest ih =>
    simp only [List.filter_cons]
    have hkey : (!(a.1 == k)) = (!(b.1 == k)) := by rw [hpq.1]
    rw [← hkey]
    by_cases hb : (!(a.1 == k)) = true
    · rw [if_pos hb, if_pos hb]
      exact List.Forall₂.cons hpq ih
    · rw [if_neg hb, if_neg hb]
      exact ih

theorem ttStore_shape (t1 t2 : List (Nat × TTEntry)) (h : tablesShape t1 t2)
    (k : Nat) (e : TTEntry) :
    tablesShape (ttStore t1 k e) (ttStore t2 k e) :=
  List.Forall₂.cons ⟨rfl, rfl, rfl, rfl⟩ (tablesShape_filter t1 t2 h k)

theorem alphaBeta_node_state (hashFn : Board → Nat) (dl : Option Nat) (board : Board)
    (turn : Turn) (depth : Nat) (alpha beta : Int) (persp : Turn) (st : SState)
    (h : timeUpAt dl st.checks = false)
    (h1 : ¬(depth = 0 ∨ (board.getValidMoves turn = [] ∧
      board.getValidMoves (opponent turn) = [])))
    (h2 : ¬board.getValidMoves turn = []) :
    (alphaBeta hashFn dl board turn depth alpha beta persp st).2 =
      (if timeUpAt dl (abLoop dl board turn (turn == persp)
          (fun nb a b s => alphaBeta hashFn dl nb (opponent turn) (depth - 1) a b persp s)
          (orderMoves (ttProbe st.table (hashFn board) depth (board.getValidMoves turn))
            board turn)
          alpha beta (if (turn == persp) then -INF else INF)
          ((orderMoves (ttProbe st.table (hashFn board) depth (board.getValidMoves turn))
            board turn).headD ⟨0, 0⟩)
          (bump st)).2.2.checks
       then bump (abLoop dl board turn (turn == persp)
          (fun nb a b s => alphaBeta hashFn dl nb (opponent turn) (depth - 1) a b persp s)
          (orderMoves (ttProbe st.table (hashFn board) depth (board.getValidMoves turn))
            board turn)
          alpha beta (if (turn == persp) then -INF else INF)
          ((orderMoves (ttProbe st.table (hashFn board) depth (board.getValidMoves turn))
            board turn).headD ⟨0, 0⟩)
          (bump st)).2.2
       else { checks := (abLoop dl board turn (turn == persp)
          (fun nb a b s => alphaBeta hashFn dl nb (opponent turn) (depth - 1) a b persp s)
          (orderMoves (ttProbe st.table (hashFn board) depth (board.getValidMoves turn))
            board turn)
          alpha beta (if (turn == persp) then -INF else INF)
          ((orderMoves (ttProbe st.table (hashFn board) depth (board.getValidMoves turn))
            board turn).headD ⟨0, 0⟩)
          (bump st)).2.2.checks + 1,
              table := ttStore (abLoop dl board turn (turn == persp)
          (fun nb a b s => alphaBeta hashFn dl nb (opponent turn) (depth - 1) a b persp s)
          (orderMoves (ttProbe st.table (hashFn board) depth (board.getValidMoves turn))
            board turn)
          alpha beta (if (turn == persp) then -INF else INF)
          ((orderMoves (ttProbe st.table (hashFn board) depth (board.getValidMoves turn))
            board turn).headD ⟨0, 0⟩)
          (bump st)).2.2.table (hashFn board)
                ⟨hashFn board, depth, (abLoop dl board turn (turn == persp)
          (fun nb a b s => alphaBeta hashFn dl nb (opponent turn) (depth - 1) a b persp s)
          (orderMoves (ttProbe st.table (hashFn board) depth (board.getValidMoves turn))
            board turn)
          alpha beta (if (turn == persp) then -INF else INF)
          ((orderMoves (ttProbe st.table (hashFn board) depth (board.getValidMoves turn))
            board turn).headD ⟨0, 0⟩)
          (bump st)).1, (abLoop dl board turn (turn == persp)
          (fun nb a b s => alphaBeta hashFn dl nb (opponent turn) (depth - 1) a b persp s)
          (orderMoves (ttProbe st.table (hashFn board) depth (board.getValidMoves turn))
            board turn)
          alpha beta (if (turn == persp) then -INF else INF)
          ((orderMoves (ttProbe st.table (hashFn board) depth (board.getValidMoves turn))
            board turn).headD ⟨0, 0⟩)
          (bump st)).2.1⟩ }) := by
  rw [alphaBeta_node hashFn dl board turn depth alpha beta persp st h h1 h2]
  simp only []
  split <;> split <;> rfl

theorem nodeState_shape (dl : Option Nat) (hashk : Nat) (depth : Nat)
    (A B : Int × Move × SState) (hv : A.1 = B.1) (hbm : A.2.1 = B.2.1)
    (hst : stShape A.2.2 B.2.2) :
    stShape
      (if timeUpAt dl A.2.2.checks then bump A.2.2
       else { checks := A.2.2.checks + 1,
              table := ttStore A.2.2.table hashk ⟨hashk, depth, A.1, A.2.1⟩ })
      (if timeUpAt dl B.2.2.checks then bump B.2.2
       else { checks := B.2.2.checks + 1,
              table := ttStore B.2.2.table hashk ⟨hashk, depth, B.1, B.2.1⟩ }) := by
  by_cases hT : timeUpAt dl A.2.2.checks = true
  · rw [if_pos hT, if_pos (show timeUpAt dl B.2.2.checks = true by
      rw [← hst.1]; exact hT)]
    exact stShape_bump _ _ hst
  · rw [if_neg hT, if_neg (show ¬timeUpAt dl B.2.2.checks = true by
      rw [← hst.1]; exact hT)]
    refine ⟨by simp [hst.1], ?_⟩
    rw [hv, hbm]
    exact ttStore_shape _ _ hst.2 _ _

theorem abLoop_stShape (dl : Option Nat) (board : Board) (turn : Turn)
    (maximizing : Bool)
    (recur1 recur2 : Board → Int → Int → SState → Int × SState)
    (hrec : ∀ nb a b s1 s2, stShape s1 s2 →
      (recur1 nb a b s1).1 = (recur2 nb a b s2).1 ∧
      stShape (recur1 nb a b s1).2 (recur2 nb a b s2).2) :
    ∀ (l : List Move) (alpha beta bv : Int) (bm : Move) (s1 s2 : SState),
      stShape s1 s2 →
      (abLoop dl board turn maximizing recur1 l alpha beta bv bm s1).1
        = (abLoop dl board turn maximizing recur2 l alpha beta bv bm s2).1 ∧
      (abLoop dl board turn maximizing recur1 l alpha beta bv bm s1).2.1
        = (abLoop dl board turn maximizing recur2 l alpha beta bv bm s2).2.1 ∧
      stShape (abLoop dl board turn maximizing recur1 l alpha beta bv bm s1).2.2
        (abLoop dl board turn maximizing recur2 l alpha beta bv bm s2).2.2 := by
  intro l
  induction l with
  | nil =>
    intro alpha beta bv bm s1 s2 hsh
    exact ⟨rfl, rfl, hsh⟩
  | cons m rest ih =>
    intro alpha beta bv bm s1 s2 hsh
    rw [abLoop, abLoop]
    rw [← hsh.1]
    by_cases hT : timeUpAt dl s1.checks = true
    · rw [if_pos hT, if_pos hT]
      exact ⟨rfl, rfl, stShape_bump _ _ hsh⟩
    · rw [if_neg hT, if_neg hT]
      rcases hmk : board.makeMove turn m with _ | nb
      · simp only [hmk]
        exact ih _ _ _ _ _ _ (stShape_bump _ _ hsh)
      · simp only [hmk]
        obtain ⟨hv, hst⟩ := hrec nb alpha beta (bump s1) (bump s2) (stShape_bump _ _ hsh)
        rw [← hv]
        by_cases hmax : maximizing = true
        · rw [if_pos hmax, if_pos hmax]
          by_cases hcut : beta ≤ max alpha (recur1 nb alpha beta (bump s1)).1
          · rw [if_pos hcut, if_pos hcut]
            exact ⟨rfl, rfl, hst⟩
          · rw [if_neg hcut, if_neg hcut]
            exact ih _ _ _ _ _ _ hst
        · rw [if_neg hmax, if_neg hmax]
          by_cases hcut : min beta (recur1 nb alpha beta (bump s1)).1 ≤ alpha
          · rw [if_pos hcut, if_pos hcut]
            exact ⟨rfl, rfl, hst⟩
          · rw [if_neg hcut, if_neg hcut]
            exact ih _ _ _ _ _ _ hst

theorem alphaBeta_stShape (hashFn : Board → Nat) (dl : Option Nat) (persp : Turn) :
    ∀ (depth : Nat) (board : Board) (turn : Turn) (alpha beta : Int) (s1 s2 : SState),
      stShape s1 s2 →
      (alphaBeta hashFn dl board turn depth alpha beta persp s1).1
        = (alphaBeta hashFn dl board turn depth alpha beta persp s2).1 ∧
      stShape (alphaBeta hashFn dl board turn depth alpha beta persp s1).2
        (alphaBeta hashFn dl board turn depth alpha beta persp s2).2 := by
  intro depth
  induction depth using Nat.strong_induction_on with
  | _ depth IH =>
    have Pne : ∀ (board : Board) (turn : Turn) (alpha beta : Int) (s1 s2 : SState),
        stShape s1 s2 → board.getValidMoves turn ≠ [] →
        (alphaBeta hashFn dl board turn depth alpha beta persp s1).1
          = (alphaBeta hashFn dl board turn depth alpha beta persp s2).1 ∧
        stShape (alphaBeta hashFn dl board turn depth alpha beta persp s1).2
          (alphaBeta hashFn dl board turn depth alpha beta persp s2).2 := by
      intro board turn alpha beta s1 s2 hsh hne
      by_cases hT : timeUpAt dl s1.checks = true
      · rw [alphaBeta_timeout _ _ _ _ _ _ _ _ _ hT,
          alphaBeta_timeout _ _ _ _ _ _ _ _ _ (hsh.1 ▸ hT)]
        exact ⟨rfl, stShape_bump _ _ hsh⟩
      · have hT' : timeUpAt dl s1.checks = false := by simpa using hT
        have hT2' : timeUpAt dl s2.checks = false := hsh.1 ▸ hT'
        by_cases h1 : depth = 0 ∨ (board.getValidMoves turn = [] ∧
            board.getValidMoves (opponent turn) = [])
        · rw [alphaBeta_leaf _ _ _ _ _ _ _ _ _ hT' h1,
            alphaBeta_leaf _ _ _ _ _ _ _ _ _ hT2' h1]
          exact ⟨rfl, stShape_bump _ _ hsh⟩
        · have hd : depth ≠ 0 := fun hc => h1 (Or.inl hc)
          have hprobe := ttProbe_shape s1.table s2.table hsh.2 (hashFn board) depth
            (board.getValidMoves turn)
          obtain ⟨hv, hbm, hst⟩ := abLoop_stShape dl board turn (turn == persp)
            (fun nb a b s => alphaBeta hashFn dl nb (opponent turn) (depth - 1) a b persp s)
            (fun nb a b s => alphaBeta hashFn dl nb (opponent turn) (depth - 1) a b persp s)
            (fun nb a b u1 u2 hu => IH (depth - 1) (by omega) nb (opponent turn) a b u1 u2 hu)
            (orderMoves (ttProbe s1.table (hashFn board) depth (board.getValidMoves turn))
              board turn)
            alpha beta (if (turn == persp) then -INF else INF)
            ((orderMoves (ttProbe s1.table (hashFn board) depth (board.getValidMoves turn))
              board turn).headD ⟨0, 0⟩)
            (bump s1) (bump s2) (stShape_bump _ _ hsh)
          constructor
          · rw [alphaBeta_node_val _ _ _ _ _ _ _ _ _ hT' h1 hne,
              alphaBeta_node_val _ _ _ _ _ _ _ _ _ hT2' h1 hne, ← hprobe]
            exact hv
          · rw [alphaBeta_node_state _ _ _ _ _ _ _ _ _ hT' h1 hne,
              alphaBeta_node_state _ _ _ _ _ _ _ _ _ hT2' h1 hne, ← hprobe]
            exact nodeState_shape dl (hashFn board) depth _ _ hv hbm hst
    intro board turn alpha beta s1 s2 hsh
    by_cases hne : board.getValidMoves turn = []
    · by_cases hT : timeUpAt dl s1.checks = true
      · rw [alphaBeta_timeout _ _ _ _ _ _ _ _ _ hT,
          alphaBeta_timeout _ _ _ _ _ _ _ _ _ (hsh.1 ▸ hT)]
        exact ⟨rfl, stShape_bump _ _ hsh⟩
      · have hT' : timeUpAt dl s1.checks = false := by simpa using hT
        have hT2' : timeUpAt dl s2.checks = false := hsh.1 ▸ hT'
        by_cases h1 : depth = 0 ∨ (board.getValidMoves turn = [] ∧
            board.getValidMoves (opponent turn) = [])
        · rw [alphaBeta_leaf _ _ _ _ _ _ _ _ _ hT' h1,
            alphaBeta_leaf _ _ _ _ _ _ _ _ _ hT2' h1]
          exact ⟨rfl, stShape_bump _ _ hsh⟩
        · have hopp : board.getValidMoves (opponent turn) ≠ [] :=
            fun hc => h1 (Or.inr ⟨hne, hc⟩)
          rw [alphaBeta_pass _ _ _ _ _ _ _ _ _ hT' h1 hne,
            alphaBeta_pass _ _ _ _ _ _ _ _ _ hT2' h1 hne]
          exact Pne board (opponent turn) alpha beta (bump s1) (bump s2)
            (stShape_bump _ _ hsh) hopp
    · exact Pne board turn alpha beta s1 s2 hsh hne

/-- C7: a transposition-table entry influences a search node only when its
stored hash matches the probe key and its stored depth is at least the
requested depth — a probe with no such usable entry leaves the move list
unchanged; when usable it only promotes the cached best move to the front of
the move list fed to the orderer; and the node's score is computed by
searching, never read back from the table: two tables agreeing on keys, hash
fields, depths and best moves but with arbitrary stored scores make
`alphaBeta` return the same score. -/
theorem ttEntry_influence_only_ordering :
    (∀ (table : List (Nat × TTEntry)) (k d : Nat) (moves : List Move),
      (∀ p, table.find? (fun q => q.1 == k) = some p →
        ¬(p.2.hash = k ∧ d ≤ p.2.depth)) →
      ttProbe table k d moves = moves) ∧
    (∀ (table : List (Nat × TTEntry)) (k d : Nat) (moves : List Move)
        (p : Nat × TTEntry), table.find? (fun q => q.1 == k) = some p →
      p.2.hash = k → d ≤ p.2.depth →
      ttProbe table k d moves = promote p.2.bestMove moves) ∧
    (∀ (hashFn : Board → Nat) (dl : Option Nat) (board : Board) (turn : Turn)
        (depth : Nat) (alpha beta : Int) (persp : Turn) (s1 s2 : SState),
      stShape s1 s2 →
      (alphaBeta hashFn dl board turn depth alpha beta persp s1).1
        = (alphaBeta hashFn dl board turn depth alpha beta persp s2).1) := by
  refine ⟨?_, ?_, ?_⟩
  · intro table k d moves hmiss
    unfold ttProbe
    rcases hf : table.find? (fun q => q.1 == k) with _ | p
    · rw [hf]
    · rw [hf]
      exact if_neg (hmiss p hf)
  · intro table k d moves p hf hh hd
    unfold ttProbe
    rw [hf]
    exact if_pos ⟨hh, hd⟩
  · intro hashFn dl board turn depth alpha beta persp s1 s2 hsh
    exact (alphaBeta_stShape hashFn dl persp depth board turn alpha beta s1 s2 hsh).1

/-- Witness for C7 at concrete tables, keys and positions: an entry of
insufficient depth does not change the move list, a usable entry promotes its
best move, and two tables differing only in a stored score (17 against 955)
give the same alpha-beta score. -/
theorem ttEntry_influence_only_ordering_w :
    ttProbe [(0, ⟨0, 1, 17, ⟨4, 5⟩⟩)] 0 2 [⟨2, 3⟩] = [⟨2, 3⟩] ∧
    ttProbe [(0, ⟨0, 5, 17, ⟨4, 5⟩⟩)] 0 2 [⟨2, 3⟩] = promote ⟨4, 5⟩ [⟨2, 3⟩] ∧
    (alphaBeta hf0 none sampleBoard Turn.BLACK 2 (-INF) INF Turn.BLACK
        ⟨0, [(0, ⟨0, 5, 17, ⟨4, 5⟩⟩)]⟩).1
      = (alphaBeta hf0 none sampleBoard Turn.BLACK 2 (-INF) INF Turn.BLACK
        ⟨0, [(0, ⟨0, 5, 955, ⟨4, 5⟩⟩)]⟩).1 :=
  ⟨ttEntry_influence_only_ordering.1 [(0, ⟨0, 1, 17, ⟨4, 5⟩⟩)] 0 2 [⟨2, 3⟩]
      (by intro p hp; injection hp with hp; rw [← hp]; decide),
   ttEntry_influence_only_ordering.2.1 [(0, ⟨0, 5, 17, ⟨4, 5⟩⟩)] 0 2 [⟨2, 3⟩]
      (0, ⟨0, 5, 17, ⟨4, 5⟩⟩) (by decide) rfl (by decide),
   ttEntry_influence_only_ordering.2.2 hf0 none sampleBoard Turn.BLACK 2 (-INF)
      INF Turn.BLACK ⟨0, [(0, ⟨0, 5, 17, ⟨4, 5⟩⟩)]⟩ ⟨0, [(0, ⟨0, 5, 955, ⟨4, 5⟩⟩)]⟩
      ⟨rfl, List.Forall₂.cons ⟨rfl, rfl, rfl, rfl⟩ List.Forall₂.nil⟩⟩

theorem searchOk_eval (d : Nat) (b : Board) (h : searchOk d b = true) (persp : Turn) :
    -INF ≤ evaluate b persp ∧ evaluate b persp ≤ INF := by
  have hb : -INF ≤ evaluate b Turn.BLACK ∧ evaluate b Turn.BLACK ≤ INF := by
    cases d with
    | zero =>
      simp only [searchOk, Bool.and_eq_true, decide_eq_true_eq] at h
      exact h
    | succ d =>
      simp only [searchOk, Bool.and_eq_true, decide_eq_true_eq] at h
      exact ⟨h.1.1.1, h.1.1.2⟩
  cases persp with
  | BLACK => exact hb
  | RED =>
    have hsym := evaluate_black_neg_red b
    unfold INF at hb ⊢
    constructor <;> omega

theorem makeMove_children (b : Board) (t : Turn) (m : Move) (nb : Board)
    (hmk : b.makeMove t m = some nb) :
    ∃ p ∈ b.children t, p.1 = m ∧ p.2 = nb := by
  unfold Board.makeMove at hmk
  rcases hf : (b.children t).find? (fun p => p.1 == m) with _ | p
  · rw [hf] at hmk; simp at hmk
  · rw [hf] at hmk
    simp only [Option.map_some'] at hmk
    injection hmk with hmk
    refine ⟨p, List.mem_of_find?_eq_some hf, ?_, hmk⟩
    have := List.find?_some hf
    simpa using this

theorem searchOk_dom (d : Nat) (b : Board) (h : searchOk (d + 1) b = true)
    (t : Turn) (m : Move) (nb : Board) (hmk : b.makeMove t m = some nb) :
    m ∈ b.getValidMoves t := by
  simp only [searchOk, Bool.and_eq_true, decide_eq_true_eq] at h
  obtain ⟨p, hp, hpm, _⟩ := makeMove_children b t m nb hmk
  have hdom := h.1.2
  unfold domOk at hdom
  simp only [Bool.and_eq_true, List.all_eq_true, decide_eq_true_eq] at hdom
  cases t with
  | BLACK => exact hpm ▸ hdom.1 p hp
  | RED => exact hpm ▸ hdom.2 p hp

theorem searchOk_child (d : Nat) (b : Board) (h : searchOk (d + 1) b = true)
    (t : Turn) (m : Move) (nb : Board) (hmk : b.makeMove t m = some nb) :
    searchOk d nb = true := by
  simp only [searchOk, Bool.and_eq_true, decide_eq_true_eq, List.all_eq_true] at h
  obtain ⟨p, hp, _, hpnb⟩ := makeMove_children b t m nb hmk
  have hall := h.2
  cases t with
  | BLACK => exact hpnb ▸ hall p (List.mem_append_left _ hp)
  | RED => exact hpnb ▸ hall p (List.mem_append_right _ hp)

/-! Fold lemmas over `max` and `min`. -/

theorem le_foldl_max : ∀ (l : List Int) (x : Int), x ≤ l.foldl max x := by
  intro l
  induction l with
  | nil => intro x; exact le_refl x
  | cons v t ih =>
    intro x
    calc x ≤ max x v := le_max_left x v
    _ ≤ t.foldl max (max x v) := ih (max x v)

theorem mem_le_foldl_max : ∀ (l : List Int) (x v : Int), v ∈ l → v ≤ l.foldl max x := by
  intro l
  induction l with
  | nil => intro x v hv; exact absurd hv (List.not_mem_nil v)
  | cons w t ih =>
    intro x v hv
    rcases List.mem_cons.mp hv with rfl | hv
    · calc v ≤ max x v := le_max_right x v
      _ ≤ t.foldl max (max x v) := le_foldl_max t (max x v)
    · exact ih (max x w) v hv

theorem foldl_max_le : ∀ (l : List Int) (x c : Int), x ≤ c → (∀ v ∈ l, v ≤ c) →
    l.foldl max x ≤ c := by
  intro l
  induction l with
  | nil => intro x c hx _; exact hx
  | cons w t ih =>
    intro x c hx hall
    refine ih (max x w) c (max_le hx (hall w (List.mem_cons_self _ _))) ?_
    intro v hv
    exact hall v (List.mem_cons_of_mem _ hv)

theorem foldl_max_eq_of_subsets (l1 l2 : List Int) (x : Int)
    (h12 : ∀ v ∈ l1, v ∈ l2) (h21 : ∀ v ∈ l2, v ∈ l1) :
    l1.foldl max x = l2.foldl max x := by
  apply le_antisymm
  · exact foldl_max_le l1 x _ (le_foldl_max l2 x)
      (fun v hv => mem_le_foldl_max l2 x v (h12 v hv))
  · exact foldl_max_le l2 x _ (le_foldl_max l1 x)
      (fun v hv => mem_le_foldl_max l1 x v (h21 v hv))

theorem foldl_max_hom (a : Int) : ∀ (l : List Int) (x y : Int),
    max a x = max a y → max a (l.foldl max x) = max a (l.foldl max y) := by
  intro l
  induction l with
  | nil => intro x y h; exact h
  | cons w t ih =>
    intro x y h
    refine ih (max x w) (max y w) ?_
    omega

theorem foldl_min_ge : ∀ (l : List Int) (x : Int), l.foldl min x ≤ x := by
  intro l
  induction l with
  | nil => intro x; exact le_refl x
  | cons v t ih =>
    intro x
    calc t.foldl min (min x v) ≤ min x v := ih (min x v)
    _ ≤ x := min_le_left x v

theorem foldl_min_le_mem : ∀ (l : List Int) (x v : Int), v ∈ l → l.foldl min x ≤ v := by
  intro l
  induction l with
  | nil => intro x v hv; exact absurd hv (List.not_mem_nil v)
  | cons w t ih =>
    intro x v hv
    rcases List.mem_cons.mp hv with rfl | hv
    · calc t.foldl min (min x v) ≤ min x v := foldl_min_ge t (min x v)
      _ ≤ v := min_le_right x v
    · exact ih (min x w) v hv

theorem le_foldl_min : ∀ (l : List Int) (x c : Int), c ≤ x → (∀ v ∈ l, c ≤ v) →
    c ≤ l.foldl min x := by
  intro l
  induction l with
  | nil => intro x c hx _; exact hx
  | cons w t ih =>
    intro x c hx hall
    refine ih (min x w) c (le_min hx (hall w (List.mem_cons_self _ _))) ?_
    intro v hv
    exact hall v (List.mem_cons_of_mem _ hv)

theorem foldl_min_eq_of_subsets (l1 l2 : List Int) (x : Int)
    (h12 : ∀ v ∈ l1, v ∈ l2) (h21 : ∀ v ∈ l2, v ∈ l1) :
    l1.foldl min x = l2.foldl min x := by
  apply le_antisymm
  · exact le_foldl_min l2 x _ (foldl_min_ge l1 x)
      (fun v hv => foldl_min_le_mem l1 x v (h21 v hv))
  · exact le_foldl_min l1 x _ (foldl_min_ge l2 x)
      (fun v hv => foldl_min_le_mem l2 x v (h12 v hv))

theorem foldl_min_hom (a : Int) : ∀ (l : List Int) (x y : Int),
    min a x = min a y → min a (l.foldl min x) = min a (l.foldl min y) := by
  intro l
  induction l with
  | nil => intro x y h; exact h
  | cons w t ih =>
    intro x y h
    refine ih (min x w) (min y w) ?_
    omega

/-! Unfolding lemmas for `minimax` and the conversion of its fold to a fold
over the child values. -/

theorem minimax_leaf (board : Board) (turn : Turn) (depth : Nat) (persp : Turn)
    (h1 : depth = 0 ∨ (board.getValidMoves turn = [] ∧
      board.getValidMoves (opponent turn) = [])) :
    minimax board turn depth persp = evaluate board persp := by
  rw [minimax]
  simp only []
  rw [dif_pos h1]

theorem minimax_pass (board : Board) (turn : Turn) (depth : Nat) (persp : Turn)
    (h1 : ¬(depth = 0 ∨ (board.getValidMoves turn = [] ∧
      board.getValidMoves (opponent turn) = [])))
    (h2 : board.getValidMoves turn = []) :
    minimax board turn depth persp = minimax board (opponent turn) depth persp := by
  rw [minimax]
  simp only []
  rw [dif_neg h1, dif_pos h2]

theorem minimax_node (board : Board) (turn : Turn) (depth : Nat) (persp : Turn)
    (h1 : ¬(depth = 0 ∨ (board.getValidMoves turn = [] ∧
      board.getValidMoves (opponent turn) = [])))
    (h2 : ¬board.getValidMoves turn = []) :
    minimax board turn depth persp =
      (board.getValidMoves turn).foldl
        (fun acc m =>
          match board.makeMove turn m with
          | none => acc
          | some nb =>
            if (turn == persp) then max acc (minimax nb (opponent turn) (depth - 1) persp)
            else min acc (minimax nb (opponent turn) (depth - 1) persp))
        (if (turn == persp) then -INF else INF) := by
  rw [minimax]
  simp only []
  rw [dif_neg h1, dif_neg h2]

theorem foldl_step_max (board : Board) (turn : Turn) (f : Board → Int) :
    ∀ (l : List Move) (acc : Int),
      l.foldl (fun acc m =>
          match board.makeMove turn m with
          | none => acc
          | some nb => max acc (f nb)) acc
        = (childVals board turn f l).foldl max acc := by
  intro l
  induction l with
  | nil => intro acc; rfl
  | cons m rest ih =>
    intro acc
    rw [List.foldl_cons]
    unfold childVals
    rw [List.filterMap_cons]
    rcases hmk : board.makeMove turn m with _ | nb
    · simp only []
      exact ih acc
    · simp only [Option.map_some']
      rw [List.foldl_cons]
      exact ih (max acc (f nb))

theorem foldl_step_min (board : Board) (turn : Turn) (f : Board → Int) :
    ∀ (l : List Move) (acc : Int),
      l.foldl (fun acc m =>
          match board.makeMove turn m with
          | none => acc
          | some nb => min acc (f nb)) acc
        = (childVals board turn f l).foldl min acc := by
  intro l
  induction l with
  | nil => intro acc; rfl
  | cons m rest ih =>
    intro acc
    rw [List.foldl_cons]
    unfold childVals
    rw [List.filterMap_cons]
    rcases hmk : board.makeMove turn m with _ | nb
    · simp only []
      exact ih acc
    · simp only [Option.map_some']
      rw [List.foldl_cons]
      exact ih (min acc (f nb))

theorem mem_childVals (board : Board) (turn : Turn) (f : Board → Int)
    (l : List Move) (v : Int) :
    v ∈ childVals board turn f l ↔
      ∃ m ∈ l, ∃ nb, board.makeMove turn m = some nb ∧ f nb = v := by
  unfold childVals
  rw [List.mem_filterMap]
  constructor
  · rintro ⟨m, hm, hv⟩
    rcases hmk : board.makeMove turn m with _ | nb
    · rw [hmk] at hv; simp at hv
    · rw [hmk] at hv
      simp only [Option.map_some'] at hv
      injection hv with hv
      exact ⟨m, hm, nb, hmk, hv⟩
  · rintro ⟨m, hm, nb, hmk, hv⟩
    exact ⟨m, hm, by rw [hmk]; simp [hv]⟩

theorem childVals_probe_subsets (board : Board) (turn : Turn) (f : Board → Int)
    (table : List (Nat × TTEntry)) (k d : Nat)
    (hdom : ∀ m nb, board.makeMove turn m = some nb → m ∈ board.getValidMoves turn) :
    (∀ v ∈ childVals board turn f
        (ttProbe table k d (board.getValidMoves turn)), v ∈ childVals board turn f
        (board.getValidMoves turn)) ∧
    (∀ v ∈ childVals board turn f (board.getValidMoves turn),
      v ∈ childVals board turn f (ttProbe table k d (board.getValidMoves turn))) := by
  unfold ttProbe
  rcases hf : table.find? (fun p => p.1 == k) with _ | p
  · rw [hf]
    exact ⟨fun v hv => hv, fun v hv => hv⟩
  · rw [hf]
    simp only []
    by_cases hcond : p.2.hash = k ∧ d ≤ p.2.depth
    · rw [if_pos hcond]
      constructor
      · intro v hv
        rcases (mem_childVals _ _ _ _ _).mp hv with ⟨m, hm, nb, hmk, hfv⟩
        exact (mem_childVals _ _ _ _ _).mpr ⟨m, hdom m nb hmk, nb, hmk, hfv⟩
      · intro v hv
        rcases (mem_childVals _ _ _ _ _).mp hv with ⟨m, hm, nb, hmk, hfv⟩
        exact (mem_childVals _ _ _ _ _).mpr
          ⟨m, (mem_promote _ _ _).mpr (Or.inr hm), nb, hmk, hfv⟩
    · rw [if_neg hcond]
      exact ⟨fun v hv => hv, fun v hv => hv⟩

theorem childVals_perm_subsets (board : Board) (turn : Turn) (f : Board → Int)
    (l1 l2 : List Move) (hperm : l1.Perm l2) :
    ∀ v ∈ childVals board turn f l1, v ∈ childVals board turn f l2 := by
  intro v hv
  rcases (mem_childVals _ _ _ _ _).mp hv with ⟨m, hm, nb, hmk, hfv⟩
  exact (mem_childVals _ _ _ _ _).mpr ⟨m, hperm.subset hm, nb, hmk, hfv⟩

theorem childVals_cons_none (board : Board) (turn : Turn) (mval : Board → Int)
    (m : Move) (rest : List Move) (hmk : board.makeMove turn m = none) :
    childVals board turn mval (m :: rest) = childVals board turn mval rest := by
  unfold childVals
  rw [List.filterMap_cons, hmk]
  rfl

theorem childVals_cons_some (board : Board) (turn : Turn) (mval : Board → Int)
    (m : Move) (rest : List Move) (nb : Board)
    (hmk : board.makeMove turn m = some nb) :
    childVals board turn mval (m :: rest)
      = mval nb :: childVals board turn mval rest := by
  unfold childVals
  rw [List.filterMap_cons, hmk]
  rfl

theorem abLoop_bracket_max (board : Board) (turn : Turn)
    (recur : Board → Int → Int → SState → Int × SState)
    (mval : Board → Int) (beta : Int)
    (hrec : ∀ m nb, board.makeMove turn m = some nb → ∀ (a : Int) (st : SState),
      -INF ≤ a → a < beta →
      min beta (max a (recur nb a beta st).1) = min beta (max a (mval nb))) :
    ∀ (l : List Move) (alpha0 a bv : Int) (bm : Move) (st : SState),
      -INF ≤ alpha0 → alpha0 ≤ a → a < beta → a = max alpha0 bv →
      min beta (max alpha0 (abLoop none board turn true recur l a beta bv bm st).1)
        = min beta (max alpha0 ((childVals board turn mval l).foldl max bv)) := by
  intro l
  induction l with
  | nil =>
    intro alpha0 a bv bm st h0 h0a hab hinv
    rfl
  | cons m rest ih =>
    intro alpha0 a bv bm st h0 h0a hab hinv
    rw [abLoop]
    rw [if_neg (by simp [timeUpAt])]
    rcases hmk : board.makeMove turn m with _ | nb
    · simp only [hmk]
      rw [childVals_cons_none board turn mval m rest hmk]
      exact ih alpha0 a bv bm (bump st) h0 h0a hab hinv
    · simp only [hmk]
      rw [if_pos trivial]
      have hchild := hrec m nb hmk a (bump st) (le_trans h0 h0a) hab
      rw [childVals_cons_some board turn mval m rest nb hmk, List.foldl_cons]
      by_cases hcut : beta ≤ max a (recur nb a beta (bump st)).1
      · rw [if_pos hcut]
        have hfold := le_foldl_max (childVals board turn mval rest)
          (max bv (mval nb))
        split <;> omega
      · rw [if_neg hcut]
        have hbv' : (if (recur nb a beta (bump st)).1 > bv
            then (recur nb a beta (bump st)).1 else bv)
            = max bv (recur nb a beta (bump st)).1 := by
          split <;> omega
        rw [hbv']
        rw [ih alpha0 (max a (recur nb a beta (bump st)).1)
          (max bv (recur nb a beta (bump st)).1)
          (if (recur nb a beta (bump st)).1 > bv then m else bm)
          (recur nb a beta (bump st)).2 h0 (by omega) (by omega) (by omega)]
        have hf1 := le_foldl_max (childVals board turn mval rest)
          (max bv (recur nb a beta (bump st)).1)
        have hf2 := le_foldl_max (childVals board turn mval rest)
          (max bv (mval nb))
        have e3 := foldl_max_hom a (childVals board turn mval rest)
          (max bv (recur nb a beta (bump st)).1) (max bv (mval nb)) (by omega)
        omega

theorem abLoop_bracket_min (board : Board) (turn : Turn)
    (recur : Board → Int → Int → SState → Int × SState)
    (mval : Board → Int) (alpha : Int)
    (hrec : ∀ m nb, board.makeMove turn m = some nb → ∀ (b : Int) (st : SState),
      b ≤ INF → alpha < b →
      max alpha (min b (recur nb alpha b st).1) = max alpha (min b (mval nb))) :
    ∀ (l : List Move) (beta0 b bv : Int) (bm : Move) (st : SState),
      beta0 ≤ INF → b ≤ beta0 → alpha < b → b = min beta0 bv →
      max alpha (min beta0 (abLoop none board turn false recur l alpha b bv bm st).1)
        = max alpha (min beta0 ((childVals board turn mval l).foldl min bv)) := by
  intro l
  induction l with
  | nil =>
    intro beta0 b bv bm st h0 h0b hab hinv
    rfl
  | cons m rest ih =>
    intro beta0 b bv bm st h0 h0b hab hinv
    rw [abLoop]
    rw [if_neg (by simp [timeUpAt])]
    rcases hmk : board.makeMove turn m with _ | nb
    · simp only [hmk]
      rw [childVals_cons_none board turn mval m rest hmk]
      exact ih beta0 b bv bm (bump st) h0 h0b hab hinv
    · simp only [hmk]
      rw [if_neg (by decide)]
      have hchild := hrec m nb hmk b (bump st) (le_trans h0b h0) hab
      rw [childVals_cons_some board turn mval m rest nb hmk, List.foldl_cons]
      by_cases hcut : min b (recur nb alpha b (bump st)).1 ≤ alpha
      · rw [if_pos hcut]
        have hfold := foldl_min_ge (childVals board turn mval rest)
          (min bv (mval nb))
        split <;> omega
      · rw [if_neg hcut]
        have hbv' : (if (recur nb alpha b (bump st)).1 < bv
            then (recur nb alpha b (bump st)).1 else bv)
            = min bv (recur nb alpha b (bump st)).1 := by
          split <;> omega
        rw [hbv']
        rw [ih beta0 (min b (recur nb alpha b (bump st)).1)
          (min bv (recur nb alpha b (bump st)).1)
          (if (recur nb alpha b (bump st)).1 < bv then m else bm)
          (recur nb alpha b (bump st)).2 h0 (by omega) (by omega) (by omega)]
        have hf1 := foldl_min_ge (childVals board turn mval rest)
          (min bv (recur nb alpha b (bump st)).1)
        have hf2 := foldl_min_ge (childVals board turn mval rest)
          (min bv (mval nb))
        have e3 := foldl_min_hom b (childVals board turn mval rest)
          (min bv (recur nb alpha b (bump st)).1) (min bv (mval nb)) (by omega)
        omega

/-! Reduction of the minimax node fold to a fold over the child values. -/

theorem minimax_node_max (board : Board) (turn : Turn) (depth : Nat) (persp : Turn)
    (h1 : ¬(depth = 0 ∨ (board.getValidMoves turn = [] ∧
      board.getValidMoves (opponent turn) = [])))
    (h2 : ¬board.getValidMoves turn = [])
    (hmax : (turn == persp) = true) :
    minimax board turn depth persp
      = (childVals board turn
          (fun nb => minimax nb (opponent turn) (depth - 1) persp)
          (board.getValidMoves turn)).foldl max (-INF) := by
  rw [minimax_node board turn depth persp h1 h2]
  simp only [hmax, eq_self_iff_true, ite_true]
  exact foldl_step_max board turn
    (fun nb => minimax nb (opponent turn) (depth - 1) persp)
    (board.getValidMoves turn) (-INF)

theorem minimax_node_min (board : Board) (turn : Turn) (depth : Nat) (persp : Turn)
    (h1 : ¬(depth = 0 ∨ (board.getValidMoves turn = [] ∧
      board.getValidMoves (opponent turn) = [])))
    (h2 : ¬board.getValidMoves turn = [])
    (hmax : (turn == persp) = false) :
    minimax board turn depth persp
      = (childVals board turn
          (fun nb => minimax nb (opponent turn) (depth - 1) persp)
          (board.getValidMoves turn)).foldl min INF := by
  rw [minimax_node board turn depth persp h1 h2]
  simp only [hmax, Bool.false_eq_true, ite_false]
  exact foldl_step_min board turn
    (fun nb => minimax nb (opponent turn) (depth - 1) persp)
    (board.getValidMoves turn) INF

/-! Range of both searches on a well-formed tree. -/

theorem minimax_range (persp : Turn) :
    ∀ (depth : Nat) (board : Board) (turn : Turn), searchOk depth board = true →
      -INF ≤ minimax board turn depth persp ∧ minimax board turn depth persp ≤ INF := by
  intro depth
  induction depth using Nat.strong_induction_on with
  | _ depth IH =>
    have Pne : ∀ (board : Board) (turn : Turn), searchOk depth board = true →
        board.getValidMoves turn ≠ [] →
        -INF ≤ minimax board turn depth persp ∧ minimax board turn depth persp ≤ INF := by
      intro board turn hOk hne
      by_cases h1 : depth = 0 ∨ (board.getValidMoves turn = [] ∧
          board.getValidMoves (opponent turn) = [])
      · rw [minimax_leaf board turn depth persp h1]
        exact searchOk_eval depth board hOk persp
      · have hd : depth ≠ 0 := fun hc => h1 (Or.inl hc)
        obtain ⟨d, rfl⟩ : ∃ d, depth = d + 1 :=
          ⟨depth - 1, (Nat.succ_pred_eq_of_pos (Nat.pos_of_ne_zero hd)).symm⟩
        have hchild : ∀ v ∈ childVals board turn
            (fun nb => minimax nb (opponent turn) (d + 1 - 1) persp)
            (board.getValidMoves turn), -INF ≤ v ∧ v ≤ INF := by
          intro v hv
          rcases (mem_childVals _ _ _ _ _).mp hv with ⟨m, hm, nb, hmk, hfv⟩
          have hIH := IH d (by omega) nb (opponent turn)
            (searchOk_child d board hOk turn m nb hmk)
          rw [← hfv]
          simpa using hIH
        rcases hmaxb : (turn == persp) with _ | _
        · rw [minimax_node_min board turn (d + 1) persp h1 hne hmaxb]
          constructor
          · exact le_foldl_min _ INF (-INF) (by unfold INF; omega)
              (fun v hv => (hchild v hv).1)
          · exact le_trans (foldl_min_ge _ INF) (le_refl INF)
        · rw [minimax_node_max board turn (d + 1) persp h1 hne hmaxb]
          constructor
          · exact le_trans (le_refl (-INF)) (le_foldl_max _ (-INF))
          · exact foldl_max_le _ (-INF) INF (by unfold INF; omega)
              (fun v hv => (hchild v hv).2)
    intro board turn hOk
    by_cases hne : board.getValidMoves turn = []
    · by_cases h1 : depth = 0 ∨ (board.getValidMoves turn = [] ∧
          board.getValidMoves (opponent turn) = [])
      · rw [minimax_leaf board turn depth persp h1]
        exact searchOk_eval depth board hOk persp
      · have hopp : board.getValidMoves (opponent turn) ≠ [] :=
          fun hc => h1 (Or.inr ⟨hne, hc⟩)
        rw [minimax_pass board turn depth persp h1 hne]
        exact Pne board (opponent turn) hOk hopp
    · exact Pne board turn hOk hne

theorem alphaBeta_range (hashFn : Board → Nat) (persp : Turn) :
    ∀ (depth : Nat) (board : Board) (turn : Turn), searchOk depth board = true →
      ∀ (alpha beta : Int) (st : SState),
        -INF ≤ (alphaBeta hashFn none board turn depth alpha beta persp st).1 ∧
        (alphaBeta hashFn none board turn depth alpha beta persp st).1 ≤ INF := by
  intro depth
  induction depth using Nat.strong_induction_on with
  | _ depth IH =>
    have Pne : ∀ (board : Board) (turn : Turn), searchOk depth board = true →
        board.getValidMoves turn ≠ [] → ∀ (alpha beta : Int) (st : SState),
        -INF ≤ (alphaBeta hashFn none board turn depth alpha beta persp st).1 ∧
        (alphaBeta hashFn none board turn depth alpha beta persp st).1 ≤ INF := by
      intro board turn hOk hne alpha beta st
      by_cases h1 : depth = 0 ∨ (board.getValidMoves turn = [] ∧
          board.getValidMoves (opponent turn) = [])
      · rw [alphaBeta_leaf hashFn none board turn depth alpha beta persp st rfl h1]
        exact searchOk_eval depth board hOk persp
      · have hd : depth ≠ 0 := fun hc => h1 (Or.inl hc)
        obtain ⟨d, rfl⟩ : ∃ d, depth = d + 1 :=
          ⟨depth - 1, (Nat.succ_pred_eq_of_pos (Nat.pos_of_ne_zero hd)).symm⟩
        rw [alphaBeta_node_val hashFn none board turn (d + 1) alpha beta persp st rfl h1 hne]
        rcases abLoop_val none board turn (turn == persp)
            (fun nb a b s =>
              alphaBeta hashFn none nb (opponent turn) (d + 1 - 1) a b persp s)
            (orderMoves (ttProbe st.table (hashFn board) (d + 1)
              (board.getValidMoves turn)) board turn)
            alpha beta (if (turn == persp) then -INF else INF)
            ((orderMoves (ttProbe st.table (hashFn board) (d + 1)
              (board.getValidMoves turn)) board turn).headD ⟨0, 0⟩)
            (bump st) with hv | hv
        · rw [hv]
          rcases hb : (turn == persp) with _ | _ <;>
            simp only [hb, Bool.false_eq_true, ite_false, eq_self_iff_true, ite_true] <;>
            unfold INF <;> omega
        · rcases hv with ⟨m, nb, a', b', st', hmk, hv⟩
          rw [hv]
          have hIH := IH d (by omega) nb (opponent turn)
            (searchOk_child d board hOk turn m nb hmk) a' b' st'
          simpa using hIH
    intro board turn hOk alpha beta st
    by_cases hne : board.getValidMoves turn = []
    · by_cases h1 : depth = 0 ∨ (board.getValidMoves turn = [] ∧
          board.getValidMoves (opponent turn) = [])
      · rw [alphaBeta_leaf hashFn none board turn depth alpha beta persp st rfl h1]
        exact searchOk_eval depth board hOk persp
      · have hopp : board.getValidMoves (opponent turn) ≠ [] :=
          fun hc => h1 (Or.inr ⟨hne, hc⟩)
        rw [alphaBeta_pass hashFn none board turn depth alpha beta persp st rfl h1 hne]
        exact Pne board (opponent turn) hOk hopp alpha beta (bump st)
    · exact Pne board turn hOk hne alpha beta st

/-! The bracket invariant: inside any window the pruned search agrees with
minimax after clamping to the window. -/

theorem alphaBeta_bracket (hashFn : Board → Nat) (persp : Turn) :
    ∀ (depth : Nat) (board : Board) (turn : Turn), searchOk depth board = true →
      ∀ (alpha beta : Int) (st : SState), -INF ≤ alpha → alpha < beta → beta ≤ INF →
      min beta (max alpha (alphaBeta hashFn none board turn depth alpha beta persp st).1)
        = min beta (max alpha (minimax board turn depth persp)) := by
  intro depth
  induction depth using Nat.strong_induction_on with
  | _ depth IH =>
    have Pne : ∀ (board : Board) (turn : Turn), searchOk depth board = true →
        board.getValidMoves turn ≠ [] →
        ∀ (alpha beta : Int) (st : SState), -INF ≤ alpha → alpha < beta → beta ≤ INF →
        min beta (max alpha (alphaBeta hashFn none board turn depth alpha beta persp st).1)
          = min beta (max alpha (minimax board turn depth persp)) := by
      intro board turn hOk hne alpha beta st ha hab hb
      by_cases h1 : depth = 0 ∨ (board.getValidMoves turn = [] ∧
          board.getValidMoves (opponent turn) = [])
      · rw [alphaBeta_leaf hashFn none board turn depth alpha beta persp st rfl h1,
          minimax_leaf board turn depth persp h1]
      · have hd : depth ≠ 0 := fun hc => h1 (Or.inl hc)
        obtain ⟨d, rfl⟩ : ∃ d, depth = d + 1 :=
          ⟨depth - 1, (Nat.succ_pred_eq_of_pos (Nat.pos_of_ne_zero hd)).symm⟩
        have hdom : ∀ m nb, board.makeMove turn m = some nb →
            m ∈ board.getValidMoves turn :=
          fun m nb hmk => searchOk_dom d board hOk turn m nb hmk
        rw [alphaBeta_node_val hashFn none board turn (d + 1) alpha beta persp st rfl h1 hne]
        simp only [Nat.add_sub_cancel]
        rcases hmaxb : (turn == persp) with _ | _
        · simp only [Bool.false_eq_true, ite_false]
          have hrec : ∀ m nb, board.makeMove turn m = some nb →
              ∀ (b : Int) (stx : SState), b ≤ INF → alpha < b →
              max alpha (min b
                ((fun nb a bb s =>
                  alphaBeta hashFn none nb (opponent turn) d a bb persp s) nb alpha b stx).1)
                = max alpha (min b (minimax nb (opponent turn) d persp)) := by
            intro m nb hmk b stx hbI hab2
            have hIH := IH d (by omega) nb (opponent turn)
              (searchOk_child d board hOk turn m nb hmk) alpha b stx ha hab2 hbI
            simp only [] at hIH ⊢
            omega
          have hbr := abLoop_bracket_min board turn
            (fun nb a b s => alphaBeta hashFn none nb (opponent turn) d a b persp s)
            (fun nb => minimax nb (opponent turn) d persp) alpha hrec
            (orderMoves (ttProbe st.table (hashFn board) (d + 1)
              (board.getValidMoves turn)) board turn)
            beta beta INF
            ((orderMoves (ttProbe st.table (hashFn board) (d + 1)
              (board.getValidMoves turn)) board turn).headD ⟨0, 0⟩)
            (bump st) hb (le_refl beta) hab (by omega)
          rw [minimax_node_min board turn (d + 1) persp h1 hne hmaxb]
          simp only [Nat.add_sub_cancel]
          have hsubs := childVals_probe_subsets board turn
            (fun nb => minimax nb (opponent turn) d persp)
            st.table (hashFn board) (d + 1) hdom
          have hperm := orderMoves_perm (ttProbe st.table (hashFn board) (d + 1)
            (board.getValidMoves turn)) board turn
          have hfold := foldl_min_eq_of_subsets
            (childVals board turn (fun nb => minimax nb (opponent turn) d persp)
              (orderMoves (ttProbe st.table (hashFn board) (d + 1)
                (board.getValidMoves turn)) board turn))
            (childVals board turn (fun nb => minimax nb (opponent turn) d persp)
              (board.getValidMoves turn)) INF
            (fun v hv => hsubs.1 v
              (childVals_perm_subsets board turn _ _ _ hperm v hv))
            (fun v hv => childVals_perm_subsets board turn _ _ _ hperm.symm v
              (hsubs.2 v hv))
          rw [← hfold]
          omega
        · simp only [eq_self_iff_true, ite_true]
          have hrec : ∀ m nb, board.makeMove turn m = some nb →
              ∀ (a : Int) (stx : SState), -INF ≤ a → a < beta →
              min beta (max a
                ((fun nb aa b s =>
                  alphaBeta hashFn none nb (opponent turn) d aa b persp s) nb a beta stx).1)
                = min beta (max a (minimax nb (opponent turn) d persp)) := by
            intro m nb hmk a stx haI hab2
            exact IH d (by omega) nb (opponent turn)
              (searchOk_child d board hOk turn m nb hmk) a beta stx haI hab2 hb
          have hbr := abLoop_bracket_max board turn
            (fun nb a b s => alphaBeta hashFn none nb (opponent turn) d a b persp s)
            (fun nb => minimax nb (opponent turn) d persp) beta hrec
            (orderMoves (ttProbe st.table (hashFn board) (d + 1)
              (board.getValidMoves turn)) board turn)
            alpha alpha (-INF)
            ((orderMoves (ttProbe st.table (hashFn board) (d + 1)
              (board.getValidMoves turn)) board turn).headD ⟨0, 0⟩)
            (bump st) ha (le_refl alpha) hab (by omega)
          rw [minimax_node_max board turn (d + 1) persp h1 hne hmaxb]
          simp only [Nat.add_sub_cancel]
          have hsubs := childVals_probe_subsets board turn
            (fun nb => minimax nb (opponent turn) d persp)
            st.table (hashFn board) (d + 1) hdom
          have hperm := orderMoves_perm (ttProbe st.table (hashFn board) (d + 1)
            (board.getValidMoves turn)) board turn
          have hfold := foldl_max_eq_of_subsets
            (childVals board turn (fun nb => minimax nb (opponent turn) d persp)
              (orderMoves (ttProbe st.table (hashFn board) (d + 1)
                (board.getValidMoves turn)) board turn))
            (childVals board turn (fun nb => minimax nb (opponent turn) d persp)
              (board.getValidMoves turn)) (-INF)
            (fun v hv => hsubs.1 v
              (childVals_perm_subsets board turn _ _ _ hperm v hv))
            (fun v hv => childVals_perm_subsets board turn _ _ _ hperm.symm v
              (hsubs.2 v hv))
          rw [← hfold]
          omega
    intro board turn hOk alpha beta st ha hab hb
    by_cases hne : board.getValidMoves turn = []
    · by_cases h1 : depth = 0 ∨ (board.getValidMoves turn = [] ∧
          board.getValidMoves (opponent turn) = [])
      · rw [alphaBeta_leaf hashFn none board turn depth alpha beta persp st rfl h1,
          minimax_leaf board turn depth persp h1]
      · have hopp : board.getValidMoves (opponent turn) ≠ [] :=
          fun hc => h1 (Or.inr ⟨hne, hc⟩)
        rw [alphaBeta_pass hashFn none board turn depth alpha beta persp st rfl h1 hne,
          minimax_pass board turn depth persp h1 hne]
        exact Pne board (opponent turn) hOk hopp alpha beta (bump st) ha hab hb
    · exact Pne board turn hOk hne alpha beta st ha hab hb

/-- C2: on a well-formed explored tree (all static evaluations within the
search window and both child maps applying only enumerated moves), with an
inexhaustible time budget, the score returned by the alpha-beta search at the
full window `(-INF, INF)` equals the score of the unpruned minimax reference
search on the same tree: the pruning, transposition probing, and move
ordering never change the root value. -/
theorem alphaBeta_eq_minimax (hashFn : Board → Nat) (board : Board) (turn : Turn)
    (depth : Nat) (persp : Turn) (st : SState) (hOk : searchOk depth board = true) :
    (alphaBeta hashFn none board turn depth (-INF) INF persp st).1
      = minimax board turn depth persp := by
  have hbr := alphaBeta_bracket hashFn persp depth board turn hOk (-INF) INF st
    (le_refl _) (by unfold INF; omega) (le_refl _)
  have har := alphaBeta_range hashFn persp depth board turn hOk (-INF) INF st
  have hmr := minimax_range persp depth board turn hOk
  omega

/-- Witness for C2 at the sample position searched to depth 2. -/
theorem alphaBeta_eq_minimax_w :
    searchOk 2 sampleBoard = true ∧
    (alphaBeta hf0 none sampleBoard Turn.BLACK 2 (-INF) INF Turn.BLACK ⟨0, []⟩).1
      = minimax sampleBoard Turn.BLACK 2 Turn.BLACK :=
  ⟨by decide, alphaBeta_eq_minimax hf0 sampleBoard Turn.BLACK 2 Turn.BLACK ⟨0, []⟩
    (by decide)⟩
